import Mathlib

/-!
# Verification of the ocrmetrics word-alignment and scoring engine

This file gives a shallow embedding, in Lean 4, of the core JavaScript
functions of the ocrmetrics repository (`static/js/preprocessor.js`,
`static/js/matcher.js`, `static/js/metrics.js`) and proves the stated
properties of the specification against them.

Modelling conventions:
* JavaScript arrays become Lean `List`s; the 4-tuples returned by
  `matchWords` become the structure `MatchRec` with `Option` fields for
  `null` entries.
* The per-word lookup object built by `createAnnotations` is modelled as a
  function from keys to queues; a key is present exactly when its queue is
  nonempty (the JavaScript code only creates a key together with a first
  queue entry, and never deletes entries).
* JavaScript numbers are modelled as `ℚ` for the metric ratios and as `Nat`
  for counts and edit distances.
* `Object.keys` enumeration is modelled as first-occurrence order of the
  distinct words (`distinctKeys`), and the stable JavaScript
  `Array.prototype.sort` as a stable insertion sort; the proofs only
  depend on these through permutation-invariant quantities.
-/

namespace OcrMetrics

/-- One match tuple `[gtWord, ocrWord, editDistance, matchType]` from
`matchWords`, with `none` for JavaScript `null`. -/
structure MatchRec where
  gtWord : Option String
  ocrWord : Option String
  editDist : Option Nat
  matchType : String
deriving DecidableEq, Repr

/-- Model of `counter(arr)` from matcher.js: occurrence counts of items. -/
def counter (arr : List String) : String → Nat :=
  fun w => arr.count w

/-- The distinct elements of a list in first-occurrence order: the key set
of the object built by `counter`, in JavaScript enumeration order. -/
def distinctKeys : List String → List String
  | [] => []
  | w :: ws => w :: (distinctKeys ws).filter (fun u => u ≠ w)

/-- Stable insertion (descending by count) used to model the stable
JavaScript sort `(a, b) => counts[b] - counts[a]`. -/
def insertByCountDesc (counts : String → Nat) (w : String) : List String → List String
  | [] => [w]
  | u :: us =>
    if counts u ≤ counts w then w :: u :: us else u :: insertByCountDesc counts w us

/-- Stable sort, descending by count: models `Object.keys(gtCounts).sort((a, b) => gtCounts[b] - gtCounts[a])`. -/
def sortByCountDesc (counts : String → Nat) : List String → List String
  | [] => []
  | w :: ws => insertByCountDesc counts w (sortByCountDesc counts ws)

/-- Model of `matchWords(gtWords, ocrWords)` from matcher.js / preprocessor.js:
phase 1 emits `min(gtCount, ocrCount)` exact records per word common to
both sides (greedy, highest counts first), phase 2 emits one `gt_only`
record per remaining ground-truth instance and one `ocr_only` record per
remaining OCR instance. -/
def matchWords (gtWords ocrWords : List String) : List MatchRec :=
  let gtCounts := counter gtWords
  let ocrCounts := counter ocrWords
  let gtWordsUnique := sortByCountDesc gtCounts (distinctKeys gtWords)
  let exact := gtWordsUnique.flatMap fun w =>
    if 0 < ocrCounts w then
      List.replicate (min (gtCounts w) (ocrCounts w)) ⟨some w, some w, some 0, "exact"⟩
    else []
  let gtRemaining := (distinctKeys gtWords).flatMap fun w =>
    List.replicate (gtCounts w - (if 0 < ocrCounts w then min (gtCounts w) (ocrCounts w) else 0)) w
  let ocrRemaining := (distinctKeys ocrWords).flatMap fun w =>
    List.replicate (ocrCounts w - (if 0 < gtCounts w then min (gtCounts w) (ocrCounts w) else 0)) w
  exact ++ gtRemaining.map (fun w => ⟨some w, none, none, "gt_only"⟩)
    ++ ocrRemaining.map (fun w => ⟨none, some w, none, "ocr_only"⟩)


/-- Phase 1 of `matchWords`: the exact records. -/
def exactSegment (gtWords ocrWords : List String) : List MatchRec :=
  (sortByCountDesc (counter gtWords) (distinctKeys gtWords)).flatMap fun w =>
    if 0 < counter ocrWords w then
      List.replicate (min (counter gtWords w) (counter ocrWords w))
        ⟨some w, some w, some 0, "exact"⟩
    else []

/-- Phase 2 of `matchWords`, ground-truth side: the `gt_only` records. -/
def gtOnlySegment (gtWords ocrWords : List String) : List MatchRec :=
  ((distinctKeys gtWords).flatMap fun w =>
    List.replicate (counter gtWords w -
      (if 0 < counter ocrWords w then min (counter gtWords w) (counter ocrWords w) else 0)) w).map
    fun w => ⟨some w, none, none, "gt_only"⟩

/-- Phase 2 of `matchWords`, OCR side: the `ocr_only` records. -/
def ocrOnlySegment (gtWords ocrWords : List String) : List MatchRec :=
  ((distinctKeys ocrWords).flatMap fun w =>
    List.replicate (counter ocrWords w -
      (if 0 < counter gtWords w then min (counter gtWords w) (counter ocrWords w) else 0)) w).map
    fun w => ⟨none, some w, none, "ocr_only"⟩

/-- The number of exact records `matchWords` emits for a given word. -/
def matchedCount (gtWords ocrWords : List String) (w : String) : Nat :=
  if 0 < counter ocrWords w then min (counter gtWords w) (counter ocrWords w) else 0

/-- The reference-side words carried by the `exact` and `gt_only` records of
a match list (the multiset the conservation invariant speaks about). -/
def gtSideWords (ms : List MatchRec) : List String :=
  ms.filterMap fun m =>
    if m.matchType = "exact" ∨ m.matchType = "gt_only" then m.gtWord else none

/-- The hypothesis-side words carried by the `exact` and `ocr_only` records
of a match list. -/
def ocrSideWords (ms : List MatchRec) : List String :=
  ms.filterMap fun m =>
    if m.matchType = "exact" ∨ m.matchType = "ocr_only" then m.ocrWord else none

/-- Rank of a match type in the order the records are emitted by
`matchWords`: exact records first, then `gt_only`, then `ocr_only`. -/
def typeRank (m : MatchRec) : Nat :=
  if m.matchType = "exact" then 0 else if m.matchType = "gt_only" then 1 else 2


/-! ## Levenshtein distance (metrics.js) -/

/-- Reference recursion for the dynamic program in `levenshteinDistance`:
the classic edit-distance recurrence consuming characters from the front.
The two-row table of the JavaScript code is related to this recursion on
the reversed prefixes of its inputs. -/
def levRec : List Char → List Char → Nat
  | [], ys => ys.length
  | xs, [] => xs.length
  | x :: xs, y :: ys =>
    if x = y then levRec xs ys
    else 1 + min (levRec xs (y :: ys)) (min (levRec (x :: xs) ys) (levRec xs ys))
termination_by xs ys => xs.length + ys.length

/-- Inner loop of `levenshteinDistance`: fills the current row from column 1
on. `pdiag` is `prevRow[j-1]`, the head of the remaining previous row is
`prevRow[j]`, and `left` is `currRow[j-1]`. -/
def rowAux (c : Char) : List Char → List Nat → Nat → List Nat
  | b :: bs, pdiag :: pup :: prest, left =>
    let cur := if c = b then pdiag else 1 + min pup (min left pdiag)
    cur :: rowAux c bs (pup :: prest) cur
  | _, _, _ => []

/-- Model of `levenshteinDistance(str1, str2)` from metrics.js: two-row dynamic
programming over the characters, with early returns for empty inputs. -/
def levenshteinDistance (str1 str2 : String) : Nat :=
  let s1 := str1.toList
  let s2 := str2.toList
  let m := s1.length
  let n := s2.length
  if m = 0 then n
  else if n = 0 then m
  else
    let row0 := List.range (n + 1)
    let finalRow := s1.enum.foldl (fun prev p => (p.1 + 1) :: rowAux p.2 s2 prev (p.1 + 1)) row0
    finalRow.getD n 0


/-- The row of edit distances `levRec X (rev p ++ Y)` for the nonempty
prefixes `p` of `bs`: the part of a DP row strictly right of column
`|Y|`, for the row whose reversed s1-prefix is `X`. -/
def drow (X : List Char) : List Char → List Char → List Nat
  | _, [] => []
  | Y, b :: bs => levRec X (b :: Y) :: drow X (b :: Y) bs

/-! ## Metrics (metrics.js) -/

/-- The object returned by `calculateMetrics`. -/
structure Scorecard where
  precision : ℚ
  recall_ : ℚ
  avg_crr : ℚ
  f1_score : ℚ
  exact_matches : Nat
  total_gt_words : Nat
  total_ocr_words : Nat
  unmatched_gt : Nat
  unmatched_ocr : Nat
  char_errors : Nat
  total_gt_chars : Nat
deriving DecidableEq, Repr

/-- Model of `words.join(\x27\x27)`: concatenation without separator. -/
def joinWords (ws : List String) : String := String.join ws

/-- Model of `calculateMetrics(matches, gtWords, ocrWords)` from metrics.js.
`gtWords`/`ocrWords` are `none` when the caller omits the word arrays, in
which case the concatenations are reconstructed from the match records. -/
def calculateMetrics (ms : List MatchRec) (gtWords ocrWords : Option (List String)) :
    Scorecard :=
  let exactMatches := ms.filter fun m => m.matchType = "exact"
  let gtOnlyMatches := ms.filter fun m => m.matchType = "gt_only"
  let ocrOnlyMatches := ms.filter fun m => m.matchType = "ocr_only"
  let exactCount := exactMatches.length
  let totalGtWords := exactCount + gtOnlyMatches.length
  let totalOcrWords := exactCount + ocrOnlyMatches.length
  let precision : ℚ := if 0 < totalOcrWords then (exactCount : ℚ) / (totalOcrWords : ℚ) else 0
  let recallVal : ℚ := if 0 < totalGtWords then (exactCount : ℚ) / (totalGtWords : ℚ) else 0
  let f1Score : ℚ :=
    if 0 < precision + recallVal then 2 * (precision * recallVal) / (precision + recallVal) else 0
  match gtWords, ocrWords with
  | some gw, some ow =>
    let gtText := joinWords gw
    let ocrText := joinWords ow
    let totalGtChars := gtText.length
    let charErrors := levenshteinDistance gtText ocrText
    let avgCrr : ℚ := if 0 < totalGtChars then 1 - (charErrors : ℚ) / (totalGtChars : ℚ) else 0
    ⟨precision, recallVal, avgCrr, f1Score, exactCount, totalGtWords, totalOcrWords,
      gtOnlyMatches.length, ocrOnlyMatches.length, charErrors, totalGtChars⟩
  | _, _ =>
    let gtWordsFromMatches := ms.filterMap fun m =>
      if m.matchType = "exact" ∨ m.matchType = "gt_only" then some (m.gtWord.getD "") else none
    let ocrWordsFromMatches := ms.filterMap fun m =>
      if m.matchType = "exact" ∨ m.matchType = "ocr_only" then some (m.ocrWord.getD "") else none
    let gtText := joinWords gtWordsFromMatches
    let ocrText := joinWords ocrWordsFromMatches
    let totalGtChars := gtText.length
    let charErrors := levenshteinDistance gtText ocrText
    let avgCrr : ℚ := if 0 < totalGtChars then 1 - (charErrors : ℚ) / (totalGtChars : ℚ) else 0
    ⟨precision, recallVal, avgCrr, f1Score, exactCount, totalGtWords, totalOcrWords,
      gtOnlyMatches.length, ocrOnlyMatches.length, charErrors, totalGtChars⟩

/-! ## Annotation (createAnnotations in preprocessor.js) -/

/-- A word-data entry `{normalized, original, position}` from `preprocessText`. -/
structure Token where
  normalized : String
  original : String
  position : Nat
deriving DecidableEq, Repr

/-- One queue entry of the lookup built by `createAnnotations`. -/
structure MInfo where
  matched_with : Option String
  edit_distance : Option Nat
  match_type : String
  match_id : Option String
  order : Nat
  used : Bool
deriving DecidableEq, Repr

/-- One output annotation object. -/
structure Annotation where
  word : String
  match_type : String
  matched_with : Option String
  edit_distance : Option Nat
  match_id : Option String
deriving DecidableEq, Repr

/-- The synthesized match identifier `match_idx`. -/
def mkMatchId (idx : Nat) : String := "match_" ++ toString idx

/-- Which record types are keyed on each side. -/
def sideTypes (isGroundTruth : Bool) : List String :=
  if isGroundTruth then ["exact", "gt_only"] else ["exact", "ocr_only"]

/-- The word a record is keyed under on the given side. -/
def sideKey (isGroundTruth : Bool) (m : MatchRec) : Option String :=
  if isGroundTruth then m.gtWord else m.ocrWord

/-- The `matched_with` value stored for a record on the given side. -/
def sidePartner (isGroundTruth : Bool) (m : MatchRec) : Option String :=
  if isGroundTruth then m.ocrWord else m.gtWord

/-- The lookup `matchMap` built by the first half of `createAnnotations`:
for each key, the queue of match infos pushed for that word, in record
order. -/
def buildMatchMap (ms : List MatchRec) (isGroundTruth : Bool) :
    Option String → List MInfo :=
  fun key => ms.enum.filterMap fun p =>
    if p.2.matchType ∈ sideTypes isGroundTruth ∧ sideKey isGroundTruth p.2 = key then
      some { matched_with := sidePartner isGroundTruth p.2
             edit_distance := p.2.editDist
             match_type := p.2.matchType
             match_id := if p.2.matchType = "exact" then some (mkMatchId p.1) else none
             order := p.1
             used := false }
    else none

/-- Stable insertion, ascending by `order`, modelling the stable JavaScript
sort `(a, b) => a.order - b.order`. -/
def insertByOrder (i : MInfo) : List MInfo → List MInfo
  | [] => [i]
  | j :: js => if i.order ≤ j.order then i :: j :: js else j :: insertByOrder i js

/-- Stable sort ascending by `order`. -/
def sortByOrder : List MInfo → List MInfo
  | [] => []
  | i :: rest => insertByOrder i (sortByOrder rest)

/-- The selection step of `createAnnotations`: among the unused entries of a
queue, prefer the exact entry of least order, otherwise the entry of least
order; `none` when every entry is used. -/
def pickMatch (queue : List MInfo) : Option MInfo :=
  let availableMatches := queue.filter fun m => !m.used
  if availableMatches.isEmpty then none
  else
    match sortByOrder (availableMatches.filter fun m => m.match_type = "exact") with
    | i :: _ => some i
    | [] => (sortByOrder availableMatches).head?

/-- Consumption step `matchInfo.used = true`: mark the consumed entry (identified by its
`order`, which is unique inside a queue) as used. -/
def markUsed (o : Nat) (queue : List MInfo) : List MInfo :=
  queue.map fun m => if m.order = o then { m with used := true } else m

/-- The annotation produced for a token classified as unmatched on its side. -/
def unmatchedAnnot (isGroundTruth : Bool) (original : String) : Annotation :=
  ⟨original, if isGroundTruth then "gt_only" else "ocr_only", none, none, none⟩

/-- The annotation produced from a consumed queue entry. -/
def annotationOf (original : String) (i : MInfo) : Annotation :=
  ⟨original, i.match_type, i.matched_with, i.edit_distance, i.match_id⟩

/-- The walk over the word data in `createAnnotations`. The second
component records the `order` (record index) of each consumed queue entry,
so that the consume-once invariant can be stated. -/
def annotateGo (isGroundTruth : Bool) :
    (Option String → List MInfo) → List Token → List Annotation × List Nat
  | _, [] => ([], [])
  | matchMap, t :: ts =>
    let key : Option String := some t.normalized
    let queue := matchMap key
    if queue.isEmpty then
      let rest := annotateGo isGroundTruth matchMap ts
      (unmatchedAnnot isGroundTruth t.original :: rest.1, rest.2)
    else
      match pickMatch queue with
      | some info =>
        let rest := annotateGo isGroundTruth
          (fun k => if k = key then markUsed info.order queue else matchMap k) ts
        (annotationOf t.original info :: rest.1, info.order :: rest.2)
      | none =>
        let rest := annotateGo isGroundTruth matchMap ts
        (unmatchedAnnot isGroundTruth t.original :: rest.1, rest.2)

/-- Model of `createAnnotations(wordData, matches, isGroundTruth)` from
preprocessor.js (the current version, with order-based tie-breaking and
the unmatched fallback). -/
def createAnnotations (wordData : List Token) (ms : List MatchRec)
    (isGroundTruth : Bool) : List Annotation :=
  (annotateGo isGroundTruth (buildMatchMap ms isGroundTruth) wordData).1

/-! ## Proof-side descriptions of the annotation walk -/

/-- A queue after its first `n` entries have been consumed. -/
def useFirst : Nat → List MInfo → List MInfo
  | _, [] => []
  | 0, q => q
  | n + 1, e :: q => { e with used := true } :: useFirst n q

/-- Closed-form description of the walk: the j-th token carrying a given
word receives the j-th entry of that word's initial queue, or the
unmatched fallback when the queue is exhausted. -/
def annsOf (isGroundTruth : Bool) (mp : Option String → List MInfo) :
    (Option String → Nat) → List Token → List Annotation
  | _, [] => []
  | cnt, t :: ts =>
    let k : Option String := some t.normalized
    let q := mp k
    let a :=
      if h : cnt k < q.length then annotationOf t.original (q.get ⟨cnt k, h⟩)
      else unmatchedAnnot isGroundTruth t.original
    a :: annsOf isGroundTruth mp (fun j => if j = k then cnt k + 1 else cnt j) ts

/-- Distinct entries of distinct queues never share an `order`. -/
def OrdersInj (mp : Option String → List MInfo) : Prop :=
  ∀ k₁ k₂ e₁ e₂, e₁ ∈ mp k₁ → e₂ ∈ mp k₂ → e₁.order = e₂.order → k₁ = k₂

/-- Every entry whose order is in `S` is already marked used. -/
def UsedOrders (mp : Option String → List MInfo) (S : List Nat) : Prop :=
  ∀ k e, e ∈ mp k → e.order ∈ S → e.used = true

/-- A fresh queue as built by `buildMatchMap` from grouped matches:
strictly increasing orders, all entries unused, exact entries first. -/
def GoodQueue (q : List MInfo) : Prop :=
  q.Pairwise (fun a b => a.order < b.order) ∧ (∀ e ∈ q, e.used = false) ∧
    q.Pairwise (fun a b => b.match_type = "exact" → a.match_type = "exact")

/-- All queues of a lookup are fresh in the above sense. -/
def GoodMap (mp : Option String → List MInfo) : Prop := ∀ k, GoodQueue (mp k)

/-- Every queue entry has a `match_id` exactly when it is an exact entry. -/
def IdTypeOk (mp : Option String → List MInfo) : Prop :=
  ∀ k e, e ∈ mp k → ((e.match_id ≠ none) ↔ e.match_type = "exact")

/-- The exact queue entry built for record index `i` of word `w` (both
sides build identical entries for an exact record). -/
def exactInfo (w : String) (i : Nat) : MInfo :=
  ⟨some w, some 0, "exact", some (mkMatchId i), i, false⟩

/-- The queue entry built for a `gt_only` record at index `i`. -/
def gtOnlyInfo (i : Nat) : MInfo := ⟨none, none, "gt_only", none, i, false⟩

/-- The queue entry built for an `ocr_only` record at index `i`. -/
def ocrOnlyInfo (i : Nat) : MInfo := ⟨none, none, "ocr_only", none, i, false⟩

/-- Indices of the exact records carrying word `w` (identical on both
sides of a `matchWords` result). -/
def exactIdsFor (ms : List MatchRec) (w : String) : List Nat :=
  ms.enum.filterMap fun p =>
    if p.2.matchType = "exact" ∧ p.2.gtWord = some w then some p.1 else none

/-! ## Preprocessing (preprocessor.js) -/

/-- The character class of the JavaScript regular expression `\s`. -/
def jsWhitespace : List Char :=
  [' ', '\t', '\n', '\x0b', '\x0c', '\r', '\u00A0', '\u1680', '\u2000', '\u2001',
   '\u2002', '\u2003', '\u2004', '\u2005', '\u2006', '\u2007', '\u2008', '\u2009',
   '\u200A', '\u2028', '\u2029', '\u202F', '\u205F', '\u3000', '\uFEFF']

/-- Model of `tokenize(text)` from preprocessor.js: split on whitespace runs and
drop empty pieces. -/
def tokenize (text : String) : List String :=
  if text = "" then []
  else (text.split fun c => c ∈ jsWhitespace).filter fun w => w.length > 0

/-- The default punctuation set of preprocessor.js. -/
def defaultPunctuation : String := "!\"#$%&\x27()*+,-./:;<=>?@[\\]^_\x60\x7b|\x7d~"

/-- Model of `removePunctuation(word, punctuationChars)`: remove every character of
the set anywhere in the word (character-class removal). -/
def removePunctuation (word : String) (punctuationChars : String) : String :=
  let chars := if punctuationChars = "" then defaultPunctuation else punctuationChars
  String.mk (word.toList.filter fun c => c ∉ chars.toList)

/-- The configuration object: `none` models an absent field, so that the
JavaScript truthiness tests `!== false`, `!== true` and `||` are rendered
exactly. -/
structure Config where
  ignore_punctuation : Option Bool
  case_sensitive : Option Bool
  punctuation_chars : Option String
deriving DecidableEq, Repr

/-- Evaluation of `config.punctuation_chars || default`. -/
def punctCharsOf (config : Config) : String :=
  match config.punctuation_chars with
  | some s => if s = "" then defaultPunctuation else s
  | none => defaultPunctuation

/-- Normalization of one word inside `preprocessText`: punctuation removal
unless `ignore_punctuation === false`, then lower-casing unless
`case_sensitive === true`. -/
def normalizeWord (config : Config) (word : String) : String :=
  let w1 :=
    if config.ignore_punctuation ≠ some false then removePunctuation word (punctCharsOf config)
    else word
  if config.case_sensitive ≠ some true then w1.toLower else w1

/-- The result object of `preprocessText`. -/
structure PreprocessResult where
  words : List String
  wordData : List Token
deriving DecidableEq, Repr

/-- Loop body of `preprocessText`: normalize one word and keep it only when
the normalization is nonempty, recording the position in the normalized
list. -/
def preprocessStep (config : Config) (acc : List String × List Token) (original : String) :
    List String × List Token :=
  let normalized := normalizeWord config original
  if normalized ≠ "" then
    (acc.1 ++ [normalized], acc.2 ++ [⟨normalized, original, acc.1.length⟩])
  else acc

/-- Model of `preprocessText(text, config)` from preprocessor.js. -/
def preprocessText (text : String) (config : Config) : PreprocessResult :=
  let originalWords := tokenize text
  let result := originalWords.foldl (preprocessStep config) ([], [])
  ⟨result.1, result.2⟩

/-- Closed form of the token list produced by `preprocessText`, starting at
a given position. -/
def tokensFrom (config : Config) : Nat → List String → List Token
  | _, [] => []
  | pos, wd :: ws =>
    if normalizeWord config wd = "" then tokensFrom config pos ws
    else ⟨normalizeWord config wd, wd, pos⟩ :: tokensFrom config (pos + 1) ws

/-! ## Plain-object semantics (prototype chain)

The word-keyed state of matcher.js / preprocessor.js lives in plain
object literals (`{}`), read with `obj[key]` and tested with `key in
obj`. Both consult the prototype chain: for the keys below, inherited
from `Object.prototype`, the test is true and the read yields an
inherited function even when the object holds no own entry. The
definitions in this section re-translate `counter`, `matchWords` and
`createAnnotations` with these semantics made explicit, so that the
behavior on words such as "constructor" can be settled. -/

/-- Model of the own properties of `Object.prototype` visible through the
prototype chain of a plain object literal: the standard function-valued
properties. For these keys `key in obj` is true and `obj[key]` returns an
inherited function even when `obj` has no own entry for `key`. -/
def protoKeys : List String :=
  ["constructor", "hasOwnProperty", "isPrototypeOf", "propertyIsEnumerable",
   "toLocaleString", "toString", "valueOf"]

/-- A value stored in or read from one of the plain-object counters: a
nonnegative count, `NaN`, an inherited `Object.prototype` function (read
through the prototype chain), or one of the non-numeric strings produced
by applying `+ 1` to such a function (JavaScript string concatenation).
Functions and the garbage strings (all nonempty) are truthy and convert
to `NaN` under `ToNumber`; `NaN` itself is falsy. -/
inductive JVal
  | num : Int → JVal
  | nan : JVal
  | fn : JVal
  | garbage : JVal
deriving DecidableEq, Repr

/-- JavaScript truthiness of a `JVal`. -/
def jsTruthy : JVal → Bool
  | .num n => n ≠ 0
  | .nan => false
  | .fn => true
  | .garbage => true

/-- JavaScript `ToNumber` of a `JVal`, with `none` standing for `NaN`:
functions and the garbage strings never convert to a number. -/
def jsToNum : JVal → Option Int
  | .num n => some n
  | _ => none

/-- `ToNumber` of a possibly-undefined property read: `undefined` converts
to `NaN`. -/
def jsToNumOpt : Option JVal → Option Int
  | some v => jsToNum v
  | none => none

/-- A plain object literal used as a word-keyed map: its own enumerable
string keys in insertion order (the model assumes no integer-like keys,
which JavaScript would enumerate first), and its own entries. -/
structure JObj where
  ownKeys : List String
  val : String → Option JVal

/-- The empty object literal `\x7b\x7d`. -/
def JObj.empty : JObj := ⟨[], fun _ => none⟩

/-- The property read `o[key]`: the own entry when present, otherwise the
inherited `Object.prototype` function when `key` collides with the
prototype chain, otherwise `undefined` (modelled as `none`). -/
def JObj.get (o : JObj) (key : String) : Option JVal :=
  match o.val key with
  | some v => some v
  | none => if key ∈ protoKeys then some JVal.fn else none

/-- The membership test `key in o`: true for own keys and for keys found
on the prototype chain. -/
def JObj.hasKey (o : JObj) (key : String) : Bool :=
  (o.val key).isSome || key ∈ protoKeys

/-- The assignment `o[key] = v`: creates or overwrites an own entry. -/
def JObj.set (o : JObj) (key : String) (v : JVal) : JObj :=
  ⟨if (o.val key).isSome then o.ownKeys else o.ownKeys ++ [key],
   fun k => if k = key then some v else o.val k⟩

/-- Evaluation of `(counts[item] || 0) + 1` in `counter`: an absent key,
a zero or a `NaN` read gives 1; a count increments; an inherited function
plus 1 concatenates its string form with "1", a non-numeric garbage
string; a garbage string plus 1 concatenates again and stays garbage. -/
def jsBump : Option JVal → JVal
  | none => .num 1
  | some (.num n) => if n = 0 then .num 1 else .num (n + 1)
  | some .nan => .num 1
  | some .fn => .garbage
  | some .garbage => .garbage

/-- Model of `counter(arr)` with the real plain-object semantics: the read
`counts[item]` goes through the prototype chain, so a word colliding with
`Object.prototype` (such as "constructor") starts from the inherited
function and is stored as a garbage string rather than as its count. -/
def jsCounter (arr : List String) : JObj :=
  arr.foldl (fun o item => o.set item (jsBump (o.get item))) JObj.empty

/-- The comparator `(a, b) => counts[b] - counts[a]` under JavaScript
arithmetic: when either operand fails to convert to a number the result
is `NaN`, which `Array.prototype.sort` treats as 0 (the elements compare
equal). -/
def jsCmpDesc (counts : JObj) (a b : String) : Int :=
  match jsToNumOpt (counts.get b), jsToNumOpt (counts.get a) with
  | some x, some y => x - y
  | _, _ => 0

/-- Stable insertion for a comparator-based sort: the element is placed
before the first element it strictly precedes. -/
def jsInsertBy (c : String → String → Int) (x : String) : List String → List String
  | [] => [x]
  | y :: ys => if c x y < 0 then x :: y :: ys else y :: jsInsertBy c x ys

/-- Stable sort with a JavaScript comparator. -/
def jsSortBy (c : String → String → Int) (l : List String) : List String :=
  l.foldl (fun acc x => jsInsertBy c x acc) []

/-- `Math.min` under JavaScript arithmetic: `NaN` once either argument is
`NaN`. -/
def jsMin : Option Int → Option Int → Option Int
  | some a, some b => some (min a b)
  | _, _ => none

/-- The number of iterations of `for (let i = 0; i < bound; i++)`: zero
when the bound is `NaN` (every comparison with `NaN` is false) or
negative. -/
def jsIter : Option Int → Nat
  | some n => n.toNat
  | none => 0

/-- Evaluation of `matchedObj[word] || 0` in phase 2 of `matchWords`: a
falsy read (`undefined`, 0 or `NaN`) gives 0, a truthy read gives the
stored value. -/
def jsOrZero : Option JVal → JVal
  | some x => if jsTruthy x then x else .num 0
  | none => .num 0

/-- State threaded through phase 1 of `matchWords`: the emitted match
records and the `gtMatched` / `ocrMatched` objects. -/
structure Phase1St where
  ms : List MatchRec
  gtM : JObj
  ocrM : JObj

/-- One iteration of phase 1 of `matchWords` over a unique ground-truth
word, with plain-object semantics: the test `gtWord in ocrCounts`
consults the prototype chain, and a `NaN` `matchCount` (from a garbage
count) emits no exact records while still being stored into the matched
objects. -/
def jsPhase1Step (gtCounts ocrCounts : JObj) (st : Phase1St) (w : String) : Phase1St :=
  if ocrCounts.hasKey w then
    let mc := jsMin (jsToNumOpt (gtCounts.get w)) (jsToNumOpt (ocrCounts.get w))
    let stored : JVal := match mc with | some n => .num n | none => .nan
    ⟨st.ms ++ List.replicate (jsIter mc) ⟨some w, some w, some 0, "exact"⟩,
     st.gtM.set w stored, st.ocrM.set w stored⟩
  else st

/-- Phase 2 of `matchWords` with plain-object semantics: for each own
entry `[word, count]` of a counter the push loop runs `count - matched`
times; with a garbage count the bound is `NaN`, the loop runs zero times
and every instance of the word is silently dropped. -/
def jsRemaining (counts matchedO : JObj) : List String :=
  counts.ownKeys.flatMap fun w =>
    match jsToNumOpt (counts.get w), jsToNum (jsOrZero (matchedO.get w)) with
    | some c, some m => List.replicate (c - m).toNat w
    | _, _ => []

/-- Model of `matchWords(gtWords, ocrWords)` with the real plain-object
semantics of matcher.js / preprocessor.js. On words free of prototype
collisions it behaves like `matchWords`; for a word colliding with
`Object.prototype` the garbage count and the always-true membership test
make both phases emit zero records, so the word disappears from the
output. -/
def jsMatchWords (gtWords ocrWords : List String) : List MatchRec :=
  let gtCounts := jsCounter gtWords
  let ocrCounts := jsCounter ocrWords
  let st := (jsSortBy (jsCmpDesc gtCounts) gtCounts.ownKeys).foldl
    (jsPhase1Step gtCounts ocrCounts) ⟨[], JObj.empty, JObj.empty⟩
  st.ms ++ (jsRemaining gtCounts st.gtM).map (fun w => ⟨some w, none, none, "gt_only"⟩)
    ++ (jsRemaining ocrCounts st.ocrM).map (fun w => ⟨none, some w, none, "ocr_only"⟩)

/-- One push of the build phase of `createAnnotations` under plain-object
semantics. The guard `if (!(key in matchMap)) matchMap[key] = []` is
skipped for a prototype-colliding key (the membership test is true
through the prototype chain before any initialization), so the following
`matchMap[key].push(...)` calls `.push` on the inherited function and
throws a TypeError, modelled as `Except.error`. -/
def jsPush (mp : String → Option (List MInfo)) (key : String) (info : MInfo) :
    Except Unit (String → Option (List MInfo)) :=
  match mp key with
  | some q => Except.ok fun k => if k = key then some (q ++ [info]) else mp k
  | none =>
    if key ∈ protoKeys then Except.error ()
    else Except.ok fun k => if k = key then some [info] else mp k

/-- The build phase of `createAnnotations` under plain-object semantics;
a `null` word used as a property key stringifies to "null". -/
def jsBuildMatchMap (ms : List MatchRec) (isGroundTruth : Bool) :
    Except Unit (String → Option (List MInfo)) :=
  ms.enum.foldl
    (fun acc p =>
      match acc with
      | Except.error e => Except.error e
      | Except.ok mp =>
        if p.2.matchType ∈ sideTypes isGroundTruth then
          let info : MInfo :=
            { matched_with := sidePartner isGroundTruth p.2
              edit_distance := p.2.editDist
              match_type := p.2.matchType
              match_id := if p.2.matchType = "exact" then some (mkMatchId p.1) else none
              order := p.1
              used := false }
          match sideKey isGroundTruth p.2 with
          | some w => jsPush mp w info
          | none => jsPush mp "null" info
        else Except.ok mp)
    (Except.ok fun _ => none)

/-- The walk of `createAnnotations` under plain-object semantics: the test
`normalized in matchMap` is true through the prototype chain for a
prototype-colliding word even when no queue was ever created for it, and
`matchMap[normalized].filter(...)` then calls `.filter` on the inherited
function, which throws a TypeError, modelled as `Except.error`. -/
def jsAnnotateGo (isGroundTruth : Bool) :
    (String → Option (List MInfo)) → List Token → Except Unit (List Annotation)
  | _, [] => Except.ok []
  | mp, t :: ts =>
    match mp t.normalized with
    | some queue =>
      match pickMatch queue with
      | some info =>
        match jsAnnotateGo isGroundTruth
            (fun k => if k = t.normalized then some (markUsed info.order queue) else mp k) ts with
        | Except.ok anns => Except.ok (annotationOf t.original info :: anns)
        | Except.error e => Except.error e
      | none =>
        match jsAnnotateGo isGroundTruth mp ts with
        | Except.ok anns => Except.ok (unmatchedAnnot isGroundTruth t.original :: anns)
        | Except.error e => Except.error e
    | none =>
      if t.normalized ∈ protoKeys then Except.error ()
      else
        match jsAnnotateGo isGroundTruth mp ts with
        | Except.ok anns => Except.ok (unmatchedAnnot isGroundTruth t.original :: anns)
        | Except.error e => Except.error e

/-- Model of `createAnnotations(wordData, matches, isGroundTruth)` with
the real plain-object semantics; `Except.error` models the TypeError
thrown on a prototype-colliding key. -/
def jsCreateAnnotations (wordData : List Token) (ms : List MatchRec)
    (isGroundTruth : Bool) : Except Unit (List Annotation) :=
  match jsBuildMatchMap ms isGroundTruth with
  | Except.error e => Except.error e
  | Except.ok mp => jsAnnotateGo isGroundTruth mp wordData

end OcrMetrics

namespace OcrMetrics

theorem distinctKeys_nodup (l : List String) : (distinctKeys l).Nodup := by
  induction l with
  | nil => simp [distinctKeys]
  | cons a t ih =>
    simp only [distinctKeys, List.nodup_cons]
    constructor
    · intro h
      have := List.of_mem_filter h
      simp at this
    · exact ih.filter _

theorem mem_distinctKeys {l : List String} {w : String} :
    w ∈ distinctKeys l ↔ w ∈ l := by
  induction l with
  | nil => simp [distinctKeys]
  | cons a t ih =>
    simp only [distinctKeys, List.mem_cons]
    constructor
    · rintro (rfl | h)
      · exact .inl rfl
      · exact .inr (ih.mp (List.mem_of_mem_filter h))
    · rintro (rfl | h)
      · exact .inl rfl
      · by_cases hw : w = a
        · exact .inl hw
        · refine .inr (List.mem_filter.mpr ⟨ih.mpr h, ?_⟩)
          simp [hw]

theorem insertByCountDesc_perm (counts : String → Nat) (w : String) (l : List String) :
    List.Perm (insertByCountDesc counts w l) (w :: l) := by
  induction l with
  | nil => simp [insertByCountDesc]
  | cons u us ih =>
    simp only [insertByCountDesc]
    split
    · exact List.Perm.refl _
    · exact (List.Perm.cons u ih).trans (List.Perm.swap w u us)

theorem sortByCountDesc_perm (counts : String → Nat) (l : List String) :
    List.Perm (sortByCountDesc counts l) l := by
  induction l with
  | nil => simp [sortByCountDesc]
  | cons w ws ih =>
    exact (insertByCountDesc_perm counts w _).trans (ih.cons w)

end OcrMetrics

namespace OcrMetrics

/-! ### Preprocessing lemmas -/

theorem preprocess_foldl (config : Config) (ws : List String) (xs : List String) (ts : List Token) :
    ws.foldl (preprocessStep config) (xs, ts) =
      (xs ++ ws.filterMap (fun wd =>
          if normalizeWord config wd = "" then none else some (normalizeWord config wd)),
       ts ++ tokensFrom config xs.length ws) := by
  induction ws generalizing xs ts with
  | nil => simp [tokensFrom]
  | cons wd rest ih =>
    simp only [List.foldl_cons, preprocessStep, List.filterMap_cons, tokensFrom]
    by_cases h : normalizeWord config wd = ""
    · simp [h, ih]
    · simp [h, ih, List.append_assoc]

theorem preprocessText_words_eq (text : String) (config : Config) :
    (preprocessText text config).words =
      (tokenize text).filterMap (fun wd =>
        if normalizeWord config wd = "" then none else some (normalizeWord config wd)) := by
  simp [preprocessText, preprocess_foldl]

theorem preprocessText_wordData_eq (text : String) (config : Config) :
    (preprocessText text config).wordData = tokensFrom config 0 (tokenize text) := by
  simp [preprocessText, preprocess_foldl]

theorem tokensFrom_map_normalized (config : Config) (ws : List String) : ∀ pos,
    (tokensFrom config pos ws).map (fun t => t.normalized) =
      ws.filterMap (fun wd =>
        if normalizeWord config wd = "" then none else some (normalizeWord config wd)) := by
  induction ws with
  | nil => intro pos; simp [tokensFrom]
  | cons wd rest ih =>
    intro pos
    by_cases h : normalizeWord config wd = ""
    · simp [tokensFrom, h, ih]
    · simp [tokensFrom, h, ih]

theorem tokensFrom_map_pair (config : Config) (ws : List String) : ∀ pos,
    (tokensFrom config pos ws).map (fun t => (t.original, t.normalized)) =
      (ws.filter (fun wd => normalizeWord config wd ≠ "")).map
        (fun wd => (wd, normalizeWord config wd)) := by
  induction ws with
  | nil => intro pos; simp [tokensFrom]
  | cons wd rest ih =>
    intro pos
    by_cases h : normalizeWord config wd = ""
    · simp [tokensFrom, h, ih]
    · simp [tokensFrom, h, ih]

theorem tokensFrom_map_position (config : Config) (ws : List String) : ∀ pos,
    (tokensFrom config pos ws).map (fun t => t.position) =
      List.range' pos (tokensFrom config pos ws).length := by
  induction ws with
  | nil => intro pos; simp [tokensFrom]
  | cons wd rest ih =>
    intro pos
    by_cases h : normalizeWord config wd = ""
    · simp only [tokensFrom, h, ite_true]
      exact ih pos
    · simp only [tokensFrom, h, ite_false, List.map_cons, List.length_cons, List.range'_succ]
      rw [ih (pos + 1)]

end OcrMetrics

namespace OcrMetrics

/-! ### Levenshtein lemmas -/

theorem levRec_nil_left (ys : List Char) : levRec [] ys = ys.length := by
  simp [levRec]

theorem levRec_nil_right (xs : List Char) : levRec xs [] = xs.length := by
  cases xs <;> simp [levRec]

theorem levRec_cons_cons (x y : Char) (xs ys : List Char) :
    levRec (x :: xs) (y :: ys) =
      if x = y then levRec xs ys
      else 1 + min (levRec xs (y :: ys)) (min (levRec (x :: xs) ys) (levRec xs ys)) := by
  simp [levRec]

theorem levRec_self (xs : List Char) : levRec xs xs = 0 := by
  induction xs with
  | nil => simp [levRec]
  | cons x t ih => simp [levRec_cons_cons, ih]

theorem levRec_comm : ∀ xs ys : List Char, levRec xs ys = levRec ys xs
  | [], ys => by rw [levRec_nil_left, levRec_nil_right]
  | x :: xs, [] => by rw [levRec_nil_left, levRec_nil_right]
  | x :: xs, y :: ys => by
    have h1 := levRec_comm xs ys
    have h2 := levRec_comm xs (y :: ys)
    have h3 := levRec_comm (x :: xs) ys
    rw [levRec_cons_cons, levRec_cons_cons, h1, h2, h3]
    by_cases h : x = y
    · subst h; simp
    · have h' : ¬ y = x := fun hyx => h hyx.symm
      rw [if_neg h, if_neg h']
      omega
termination_by xs ys => xs.length + ys.length

theorem drow_length (X : List Char) : ∀ (Y bs : List Char), (drow X Y bs).length = bs.length := by
  intro Y bs
  induction bs generalizing Y with
  | nil => simp [drow]
  | cons b t ih => simp [drow, ih]

theorem rowAux_spec (c : Char) : ∀ (bs Y X : List Char),
    rowAux c bs (levRec X Y :: drow X Y bs) (levRec (c :: X) Y) = drow (c :: X) Y bs := by
  intro bs
  induction bs with
  | nil => intro Y X; simp [drow, rowAux]
  | cons b bs' ih =>
    intro Y X
    show rowAux c (b :: bs')
        (levRec X Y :: levRec X (b :: Y) :: drow X (b :: Y) bs') (levRec (c :: X) Y) = _
    rw [rowAux]
    have hcur : (if c = b then levRec X Y
        else 1 + min (levRec X (b :: Y)) (min (levRec (c :: X) Y) (levRec X Y)))
        = levRec (c :: X) (b :: Y) := by
      rw [levRec_cons_cons]
    rw [hcur]
    show levRec (c :: X) (b :: Y) :: rowAux c bs'
        (levRec X (b :: Y) :: drow X (b :: Y) bs') (levRec (c :: X) (b :: Y)) = _
    rw [ih (b :: Y) X]
    simp [drow]

theorem drow_nil_eq_range' : ∀ (bs Y : List Char),
    drow [] Y bs = List.range' (Y.length + 1) bs.length := by
  intro bs
  induction bs with
  | nil => intro Y; simp [drow]
  | cons b t ih =>
    intro Y
    simp only [drow, levRec_nil_left, List.length_cons, List.range'_succ]
    rw [ih (b :: Y)]
    simp

theorem lev_foldl_inv (s2 : List Char) :
    ∀ (rest : List Char) (i : Nat) (X : List Char), X.length = i →
      (rest.enumFrom i).foldl (fun prev p => (p.1 + 1) :: rowAux p.2 s2 prev (p.1 + 1))
          (levRec X [] :: drow X [] s2)
        = levRec (rest.reverse ++ X) [] :: drow (rest.reverse ++ X) [] s2 := by
  intro rest
  induction rest with
  | nil => intro i X hX; simp
  | cons c rest' ih =>
    intro i X hX
    rw [List.enumFrom_cons, List.foldl_cons]
    have hlen : i + 1 = (c :: X).length := by simp [hX]
    have hhead : i + 1 = levRec (c :: X) [] := by
      rw [levRec_nil_right]; exact hlen
    have hrow : rowAux c s2 (levRec X [] :: drow X [] s2) (i + 1) = drow (c :: X) [] s2 := by
      rw [hhead]; exact rowAux_spec c s2 [] X
    rw [hrow]
    have hstep := ih (i + 1) (c :: X) (by simp [hX])
    rw [← hhead] at hstep
    rw [hstep]
    simp

theorem drow_getD_last (X : List Char) : ∀ (bs Y : List Char), bs ≠ [] →
    (drow X Y bs).getD (bs.length - 1) 0 = levRec X (bs.reverse ++ Y) := by
  intro bs
  induction bs with
  | nil => intro Y h; exact absurd rfl h
  | cons b bs' ih =>
    intro Y _
    by_cases h' : bs' = []
    · subst h'; simp [drow]
    · have hlen : 0 < bs'.length := List.length_pos.mpr h'
      show (levRec X (b :: Y) :: drow X (b :: Y) bs').getD ((b :: bs').length - 1) 0 = _
      have : (b :: bs').length - 1 = bs'.length - 1 + 1 := by
        simp only [List.length_cons]; omega
      rw [this]
      simp only [List.getD_cons_succ]
      rw [ih (b :: Y) h']
      simp

theorem levenshteinDistance_eq_levRec (a b : String) :
    levenshteinDistance a b = levRec a.toList.reverse b.toList.reverse := by
  unfold levenshteinDistance
  dsimp only
  split
  next hm =>
    have ha : a.toList = [] := List.length_eq_zero.mp hm
    rw [ha, List.reverse_nil, levRec_nil_left, List.length_reverse]
  next hm =>
    split
    next hn =>
      have hb : b.toList = [] := List.length_eq_zero.mp hn
      rw [hb, List.reverse_nil, levRec_nil_right, List.length_reverse]
    next hn =>
      have hrange : List.range (b.toList.length + 1) = levRec ([] : List Char) [] :: drow [] [] b.toList := by
        rw [drow_nil_eq_range', levRec_nil_left]
        rw [List.range_eq_range']
        rw [List.range'_succ]
        norm_num
      have henum : a.toList.enum = a.toList.enumFrom 0 := rfl
      rw [henum, hrange, lev_foldl_inv b.toList a.toList 0 [] rfl]
      have hne : b.toList ≠ [] := fun h => hn (by rw [h]; rfl)
      have hpos : 0 < b.toList.length := Nat.pos_of_ne_zero hn
      have hsplit : b.toList.length = (b.toList.length - 1) + 1 := by omega
      rw [hsplit, List.getD_cons_succ, drow_getD_last _ _ _ hne]
      simp

end OcrMetrics

namespace OcrMetrics

/-! ### matchWords counting lemmas -/

theorem matchWords_eq_segments (g o : List String) :
    matchWords g o = exactSegment g o ++ gtOnlySegment g o ++ ocrOnlySegment g o := rfl

theorem if_replicate {α : Type} (c : Prop) [Decidable c] (n : Nat) (x : α) :
    (if c then List.replicate n x else []) = List.replicate (if c then n else 0) x := by
  split <;> simp

theorem matchedCount_eq_min (g o : List String) (w : String) :
    matchedCount g o w = min (counter g w) (counter o w) := by
  unfold matchedCount
  split
  · rfl
  · omega

theorem matchedCount_le (g o : List String) (w : String) :
    matchedCount g o w ≤ counter g w := by
  rw [matchedCount_eq_min]; exact min_le_left _ _

theorem exactSegment_eq (g o : List String) :
    exactSegment g o = (sortByCountDesc (counter g) (distinctKeys g)).flatMap
      fun w => List.replicate (matchedCount g o w) ⟨some w, some w, some 0, "exact"⟩ := by
  simp only [exactSegment, if_replicate, matchedCount]

theorem length_flatMap_replicate {β : Type} (F : String → Nat) (g : String → β)
    (ks : List String) :
    (ks.flatMap fun w => List.replicate (F w) (g w)).length = (ks.map F).sum := by
  induction ks with
  | nil => simp
  | cons w t ih => simp [List.flatMap_cons, ih]

theorem sum_map_add_distrib {α : Type} (l : List α) (f g : α → ℕ) :
    (l.map fun x => f x + g x).sum = (l.map f).sum + (l.map g).sum := by
  induction l with
  | nil => simp
  | cons a t ih =>
    simp only [List.map_cons, List.sum_cons, ih]
    omega

theorem distinctKeys_perm_dedup (l : List String) :
    List.Perm (distinctKeys l) l.dedup := by
  rw [List.perm_ext_iff_of_nodup (distinctKeys_nodup l) (List.nodup_dedup l)]
  intro a
  rw [mem_distinctKeys, List.mem_dedup]

theorem sum_counter_distinctKeys (l : List String) :
    ((distinctKeys l).map (counter l)).sum = l.length := by
  rw [((distinctKeys_perm_dedup l).map (counter l)).sum_eq]
  simpa [counter] using List.sum_map_count_dedup_eq_length l

theorem exactSegment_length (g o : List String) :
    (exactSegment g o).length = ((distinctKeys g).map (matchedCount g o)).sum := by
  rw [exactSegment_eq, length_flatMap_replicate]
  exact ((sortByCountDesc_perm (counter g) (distinctKeys g)).map (matchedCount g o)).sum_eq

theorem gtOnlySegment_length (g o : List String) :
    (gtOnlySegment g o).length =
      ((distinctKeys g).map fun w => counter g w - matchedCount g o w).sum := by
  simp only [gtOnlySegment, List.length_map, length_flatMap_replicate, matchedCount]

theorem ocrOnlySegment_length (g o : List String) :
    (ocrOnlySegment g o).length =
      ((distinctKeys o).map fun w => counter o w - matchedCount o g w).sum := by
  simp only [ocrOnlySegment, List.length_map, length_flatMap_replicate, matchedCount_eq_min]
  congr 1
  apply List.map_congr_left
  intro w _
  rcases Nat.eq_zero_or_pos (counter g w) with h | h
  · simp [h]
  · rw [if_pos h, Nat.min_comm]

theorem sum_map_filter_of_zero {p : String → Bool} (l : List String) (F : String → Nat)
    (h : ∀ w ∈ l, p w = false → F w = 0) :
    (l.map F).sum = ((l.filter p).map F).sum := by
  induction l with
  | nil => simp
  | cons a t ih =>
    by_cases hp : p a
    · simp only [List.map_cons, List.sum_cons, List.filter_cons, hp, ite_true]
      rw [ih fun w hw => h w (List.mem_cons_of_mem a hw)]
    · have ha : F a = 0 := h a (List.mem_cons_self a t) (by simpa using hp)
      simp only [List.map_cons, List.sum_cons, ha, List.filter_cons]
      rw [ih fun w hw => h w (List.mem_cons_of_mem a hw)]
      simp [hp]

theorem counter_pos_iff (l : List String) (w : String) : 0 < counter l w ↔ w ∈ l := by
  simp [counter, List.count_pos_iff]

theorem matched_sum_symm (g o : List String) :
    ((distinctKeys g).map (matchedCount g o)).sum =
      ((distinctKeys o).map (matchedCount o g)).sum := by
  have hg : ∀ w ∈ distinctKeys g, (decide (w ∈ o)) = false → matchedCount g o w = 0 := by
    intro w _ hw
    have : w ∉ o := by simpa using hw
    have : counter o w = 0 := by
      rcases Nat.eq_zero_or_pos (counter o w) with h | h
      · exact h
      · exact absurd ((counter_pos_iff o w).mp h) this
    rw [matchedCount_eq_min, this]
    simp
  have ho : ∀ w ∈ distinctKeys o, (decide (w ∈ g)) = false → matchedCount o g w = 0 := by
    intro w _ hw
    have : w ∉ g := by simpa using hw
    have : counter g w = 0 := by
      rcases Nat.eq_zero_or_pos (counter g w) with h | h
      · exact h
      · exact absurd ((counter_pos_iff g w).mp h) this
    rw [matchedCount_eq_min, this]
    simp
  rw [sum_map_filter_of_zero (distinctKeys g) _ hg, sum_map_filter_of_zero (distinctKeys o) _ ho]
  have hperm : List.Perm ((distinctKeys g).filter fun w => decide (w ∈ o))
      ((distinctKeys o).filter fun w => decide (w ∈ g)) := by
    rw [List.perm_ext_iff_of_nodup ((distinctKeys_nodup g).filter _)
      ((distinctKeys_nodup o).filter _)]
    intro a
    simp only [List.mem_filter, mem_distinctKeys, decide_eq_true_eq]
    exact ⟨fun ⟨h1, h2⟩ => ⟨h2, h1⟩, fun ⟨h1, h2⟩ => ⟨h2, h1⟩⟩
  have hcongr : ∀ w ∈ (distinctKeys g).filter fun w => decide (w ∈ o),
      matchedCount g o w = matchedCount o g w := by
    intro w _
    rw [matchedCount_eq_min, matchedCount_eq_min, Nat.min_comm]
  rw [List.map_congr_left hcongr]
  exact (hperm.map (matchedCount o g)).sum_eq

end OcrMetrics

namespace OcrMetrics

/-! ### matchWords segment shape lemmas -/

theorem mem_exactSegment {g o : List String} {m : MatchRec} (h : m ∈ exactSegment g o) :
    ∃ w, m = ⟨some w, some w, some 0, "exact"⟩ := by
  rw [exactSegment_eq] at h
  rcases List.mem_flatMap.mp h with ⟨w, _, hm⟩
  exact ⟨w, List.eq_of_mem_replicate hm⟩

theorem mem_gtOnlySegment {g o : List String} {m : MatchRec} (h : m ∈ gtOnlySegment g o) :
    ∃ w, m = ⟨some w, none, none, "gt_only"⟩ := by
  rcases List.mem_map.mp h with ⟨w, _, rfl⟩
  exact ⟨w, rfl⟩

theorem mem_ocrOnlySegment {g o : List String} {m : MatchRec} (h : m ∈ ocrOnlySegment g o) :
    ∃ w, m = ⟨none, some w, none, "ocr_only"⟩ := by
  rcases List.mem_map.mp h with ⟨w, _, rfl⟩
  exact ⟨w, rfl⟩

theorem countP_matchWords_exact (g o : List String) :
    (matchWords g o).countP (fun m => m.matchType = "exact") = (exactSegment g o).length := by
  rw [matchWords_eq_segments, List.countP_append, List.countP_append]
  have h1 : (exactSegment g o).countP (fun m => m.matchType = "exact")
      = (exactSegment g o).length := by
    rw [List.countP_eq_length]
    intro m hm
    rcases mem_exactSegment hm with ⟨w, rfl⟩
    simp
  have h2 : (gtOnlySegment g o).countP (fun m => m.matchType = "exact") = 0 := by
    rw [List.countP_eq_zero]
    intro m hm
    rcases mem_gtOnlySegment hm with ⟨w, rfl⟩
    simp
  have h3 : (ocrOnlySegment g o).countP (fun m => m.matchType = "exact") = 0 := by
    rw [List.countP_eq_zero]
    intro m hm
    rcases mem_ocrOnlySegment hm with ⟨w, rfl⟩
    simp
  omega

theorem countP_matchWords_gtOnly (g o : List String) :
    (matchWords g o).countP (fun m => m.matchType = "gt_only") = (gtOnlySegment g o).length := by
  rw [matchWords_eq_segments, List.countP_append, List.countP_append]
  have h1 : (exactSegment g o).countP (fun m => m.matchType = "gt_only") = 0 := by
    rw [List.countP_eq_zero]
    intro m hm
    rcases mem_exactSegment hm with ⟨w, rfl⟩
    simp
  have h2 : (gtOnlySegment g o).countP (fun m => m.matchType = "gt_only")
      = (gtOnlySegment g o).length := by
    rw [List.countP_eq_length]
    intro m hm
    rcases mem_gtOnlySegment hm with ⟨w, rfl⟩
    simp
  have h3 : (ocrOnlySegment g o).countP (fun m => m.matchType = "gt_only") = 0 := by
    rw [List.countP_eq_zero]
    intro m hm
    rcases mem_ocrOnlySegment hm with ⟨w, rfl⟩
    simp
  omega

theorem countP_matchWords_ocrOnly (g o : List String) :
    (matchWords g o).countP (fun m => m.matchType = "ocr_only") = (ocrOnlySegment g o).length := by
  rw [matchWords_eq_segments, List.countP_append, List.countP_append]
  have h1 : (exactSegment g o).countP (fun m => m.matchType = "ocr_only") = 0 := by
    rw [List.countP_eq_zero]
    intro m hm
    rcases mem_exactSegment hm with ⟨w, rfl⟩
    simp
  have h2 : (gtOnlySegment g o).countP (fun m => m.matchType = "ocr_only") = 0 := by
    rw [List.countP_eq_zero]
    intro m hm
    rcases mem_gtOnlySegment hm with ⟨w, rfl⟩
    simp
  have h3 : (ocrOnlySegment g o).countP (fun m => m.matchType = "ocr_only")
      = (ocrOnlySegment g o).length := by
    rw [List.countP_eq_length]
    intro m hm
    rcases mem_ocrOnlySegment hm with ⟨w, rfl⟩
    simp
  omega

end OcrMetrics

namespace OcrMetrics

/-! ### Per-word conservation lemmas -/

theorem filterMap_replicate_some {α β : Type} (σ : α → Option β) (a : α) (b : β)
    (hb : σ a = some b) (n : Nat) :
    (List.replicate n a).filterMap σ = List.replicate n b := by
  induction n with
  | zero => simp
  | succ k ih => simp [List.replicate_succ, ih, hb]

theorem filterMap_flatMap {α β γ : Type} (l : List α) (f : α → List β) (σ : β → Option γ) :
    (l.flatMap f).filterMap σ = l.flatMap fun a => (f a).filterMap σ := by
  induction l with
  | nil => simp
  | cons a t ih => simp [List.flatMap_cons, List.filterMap_append, ih]

theorem flatMap_congr {α β : Type} (l : List α) (f f' : α → List β)
    (h : ∀ a ∈ l, f a = f' a) : l.flatMap f = l.flatMap f' := by
  induction l with
  | nil => simp
  | cons a t ih =>
    rw [List.flatMap_cons, List.flatMap_cons, h a (List.mem_cons_self a t),
      ih fun a ha => h a (List.mem_cons_of_mem _ ha)]

theorem count_flatMap_replicate_self (F : String → Nat) (ks : List String) (h : ks.Nodup)
    (x : String) :
    (ks.flatMap fun w => List.replicate (F w) w).count x = if x ∈ ks then F x else 0 := by
  induction ks with
  | nil => simp
  | cons w t ih =>
    rw [List.flatMap_cons, List.count_append]
    rcases List.nodup_cons.mp h with ⟨hw, ht⟩
    rw [ih ht]
    by_cases hx : x = w
    · subst hx
      simp [List.count_replicate, hw]
    · have : ¬ (w == x) = true := by simpa using fun e => hx e.symm
      simp only [List.count_replicate, this, if_false]
      simp [List.mem_cons, hx]

theorem gtSideWords_append (l₁ l₂ : List MatchRec) :
    gtSideWords (l₁ ++ l₂) = gtSideWords l₁ ++ gtSideWords l₂ := by
  simp [gtSideWords, List.filterMap_append]

theorem ocrSideWords_append (l₁ l₂ : List MatchRec) :
    ocrSideWords (l₁ ++ l₂) = ocrSideWords l₁ ++ ocrSideWords l₂ := by
  simp [ocrSideWords, List.filterMap_append]

theorem gtSideWords_exactSegment (g o : List String) :
    gtSideWords (exactSegment g o) =
      (sortByCountDesc (counter g) (distinctKeys g)).flatMap
        fun w => List.replicate (matchedCount g o w) w := by
  rw [exactSegment_eq]
  unfold gtSideWords
  rw [filterMap_flatMap]
  apply flatMap_congr
  intro w _
  apply filterMap_replicate_some
  simp

theorem ocrSideWords_exactSegment (g o : List String) :
    ocrSideWords (exactSegment g o) =
      (sortByCountDesc (counter g) (distinctKeys g)).flatMap
        fun w => List.replicate (matchedCount g o w) w := by
  rw [exactSegment_eq]
  unfold ocrSideWords
  rw [filterMap_flatMap]
  apply flatMap_congr
  intro w _
  apply filterMap_replicate_some
  simp

theorem gtSideWords_gtOnlySegment (g o : List String) :
    gtSideWords (gtOnlySegment g o) =
      (distinctKeys g).flatMap fun w => List.replicate (counter g w - matchedCount g o w) w := by
  unfold gtOnlySegment gtSideWords
  rw [List.filterMap_map]
  have : ∀ L : List String, L.filterMap ((fun m : MatchRec =>
      if m.matchType = "exact" ∨ m.matchType = "gt_only" then m.gtWord else none) ∘
        fun w => (⟨some w, none, none, "gt_only"⟩ : MatchRec)) = L := by
    intro L
    induction L with
    | nil => simp
    | cons a t ih => simpa using ih
  rw [this]
  apply flatMap_congr
  intro w _
  simp [matchedCount]

theorem ocrSideWords_ocrOnlySegment (g o : List String) :
    ocrSideWords (ocrOnlySegment g o) =
      (distinctKeys o).flatMap fun w => List.replicate (counter o w - matchedCount o g w) w := by
  unfold ocrOnlySegment ocrSideWords
  rw [List.filterMap_map]
  have : ∀ L : List String, L.filterMap ((fun m : MatchRec =>
      if m.matchType = "exact" ∨ m.matchType = "ocr_only" then m.ocrWord else none) ∘
        fun w => (⟨none, some w, none, "ocr_only"⟩ : MatchRec)) = L := by
    intro L
    induction L with
    | nil => simp
    | cons a t ih => simpa using ih
  rw [this]
  apply flatMap_congr
  intro w _
  rw [matchedCount_eq_min]
  rcases Nat.eq_zero_or_pos (counter g w) with h | h
  · simp [h]
  · rw [if_pos h, Nat.min_comm]

theorem gtSideWords_ocrOnlySegment (g o : List String) :
    gtSideWords (ocrOnlySegment g o) = [] := by
  unfold ocrOnlySegment gtSideWords
  rw [List.filterMap_map]
  apply List.filterMap_eq_nil_iff.mpr
  intro w _
  simp [Function.comp]

theorem ocrSideWords_gtOnlySegment (g o : List String) :
    ocrSideWords (gtOnlySegment g o) = [] := by
  unfold gtOnlySegment ocrSideWords
  rw [List.filterMap_map]
  apply List.filterMap_eq_nil_iff.mpr
  intro w _
  simp [Function.comp]

theorem counter_eq_zero_of_not_mem {l : List String} {x : String} (h : x ∉ l) :
    counter l x = 0 := by
  simp [counter, List.count_eq_zero, h]

theorem gtSideWords_count (g o : List String) (x : String) :
    (gtSideWords (matchWords g o)).count x = counter g x := by
  rw [matchWords_eq_segments, gtSideWords_append, gtSideWords_append]
  rw [List.count_append, List.count_append]
  rw [gtSideWords_exactSegment, gtSideWords_gtOnlySegment, gtSideWords_ocrOnlySegment]
  have hnodupS : (sortByCountDesc (counter g) (distinctKeys g)).Nodup :=
    ((sortByCountDesc_perm (counter g) (distinctKeys g)).nodup_iff).mpr (distinctKeys_nodup g)
  rw [count_flatMap_replicate_self _ _ hnodupS, count_flatMap_replicate_self _ _ (distinctKeys_nodup g)]
  have hmemS : x ∈ sortByCountDesc (counter g) (distinctKeys g) ↔ x ∈ g := by
    rw [(sortByCountDesc_perm (counter g) (distinctKeys g)).mem_iff, mem_distinctKeys]
  by_cases hx : x ∈ g
  · rw [if_pos (hmemS.mpr hx), if_pos (mem_distinctKeys.mpr hx)]
    have := matchedCount_le g o x
    simp
    omega
  · rw [if_neg (fun h => hx (hmemS.mp h)), if_neg (fun h => hx (mem_distinctKeys.mp h))]
    rw [counter_eq_zero_of_not_mem hx]
    simp

theorem ocrSideWords_count (g o : List String) (x : String) :
    (ocrSideWords (matchWords g o)).count x = counter o x := by
  rw [matchWords_eq_segments, ocrSideWords_append, ocrSideWords_append]
  rw [List.count_append, List.count_append]
  rw [ocrSideWords_exactSegment, ocrSideWords_gtOnlySegment, ocrSideWords_ocrOnlySegment]
  have hnodupS : (sortByCountDesc (counter g) (distinctKeys g)).Nodup :=
    ((sortByCountDesc_perm (counter g) (distinctKeys g)).nodup_iff).mpr (distinctKeys_nodup g)
  rw [count_flatMap_replicate_self _ _ hnodupS, count_flatMap_replicate_self _ _ (distinctKeys_nodup o)]
  have hmemS : x ∈ sortByCountDesc (counter g) (distinctKeys g) ↔ x ∈ g := by
    rw [(sortByCountDesc_perm (counter g) (distinctKeys g)).mem_iff, mem_distinctKeys]
  have hmc : matchedCount g o x = matchedCount o g x := by
    rw [matchedCount_eq_min, matchedCount_eq_min, Nat.min_comm]
  by_cases hxo : x ∈ o
  · rw [if_pos (mem_distinctKeys.mpr hxo)]
    by_cases hxg : x ∈ g
    · rw [if_pos (hmemS.mpr hxg), hmc]
      have := matchedCount_le o g x
      simp
      omega
    · rw [if_neg (fun h => hxg (hmemS.mp h))]
      have : matchedCount o g x = 0 := by
        rw [matchedCount_eq_min, counter_eq_zero_of_not_mem hxg]
        simp
      simp [this]
  · rw [if_neg (fun h => hxo (mem_distinctKeys.mp h))]
    have hz : counter o x = 0 := counter_eq_zero_of_not_mem hxo
    by_cases hxg : x ∈ g
    · rw [if_pos (hmemS.mpr hxg)]
      have : matchedCount g o x = 0 := by
        rw [matchedCount_eq_min, hz]
        simp
      simp [this, hz]
    · rw [if_neg (fun h => hxg (hmemS.mp h)), hz]
      simp

end OcrMetrics

namespace OcrMetrics

/-! ### Length conservation lemmas -/

theorem exact_add_gtOnly_length (g o : List String) :
    (exactSegment g o).length + (gtOnlySegment g o).length = g.length := by
  rw [exactSegment_length, gtOnlySegment_length, ← sum_map_add_distrib]
  rw [List.map_congr_left (g := counter g) (fun w _ => by
    have := matchedCount_le g o w
    omega)]
  exact sum_counter_distinctKeys g

theorem exact_add_ocrOnly_length (g o : List String) :
    (exactSegment g o).length + (ocrOnlySegment g o).length = o.length := by
  rw [exactSegment_length, ocrOnlySegment_length, matched_sum_symm, ← sum_map_add_distrib]
  rw [List.map_congr_left (g := counter o) (fun w _ => by
    have := matchedCount_le o g w
    omega)]
  exact sum_counter_distinctKeys o

/-! ### Ordering lemmas -/

theorem pairwise_rank_const {l : List MatchRec} {r : Nat} (h : ∀ m ∈ l, typeRank m = r) :
    l.Pairwise (fun a b => typeRank a ≤ typeRank b) := by
  induction l with
  | nil => exact List.Pairwise.nil
  | cons a t ih =>
    refine List.Pairwise.cons ?_ (ih fun m hm => h m (List.mem_cons_of_mem a hm))
    intro b hb
    rw [h a (List.mem_cons_self a t), h b (List.mem_cons_of_mem a hb)]

theorem typeRank_exactSegment {g o : List String} {m : MatchRec} (h : m ∈ exactSegment g o) :
    typeRank m = 0 := by
  rcases mem_exactSegment h with ⟨w, rfl⟩
  simp [typeRank]

theorem typeRank_gtOnlySegment {g o : List String} {m : MatchRec} (h : m ∈ gtOnlySegment g o) :
    typeRank m = 1 := by
  rcases mem_gtOnlySegment h with ⟨w, rfl⟩
  simp [typeRank]

theorem typeRank_ocrOnlySegment {g o : List String} {m : MatchRec} (h : m ∈ ocrOnlySegment g o) :
    typeRank m = 2 := by
  rcases mem_ocrOnlySegment h with ⟨w, rfl⟩
  simp [typeRank]

theorem matchWords_pairwise_rank (g o : List String) :
    (matchWords g o).Pairwise (fun a b => typeRank a ≤ typeRank b) := by
  rw [matchWords_eq_segments, List.pairwise_append]
  refine ⟨?_, pairwise_rank_const (fun m hm => typeRank_ocrOnlySegment hm), ?_⟩
  · rw [List.pairwise_append]
    refine ⟨pairwise_rank_const (fun m hm => typeRank_exactSegment hm),
      pairwise_rank_const (fun m hm => typeRank_gtOnlySegment hm), ?_⟩
    intro a ha b hb
    rw [typeRank_exactSegment ha, typeRank_gtOnlySegment hb]
    omega
  · intro a ha b hb
    rw [typeRank_ocrOnlySegment hb]
    rcases List.mem_append.mp ha with h | h
    · rw [typeRank_exactSegment h]; omega
    · rw [typeRank_gtOnlySegment h]; omega

theorem mem_matchWords_shape {g o : List String} {m : MatchRec} (h : m ∈ matchWords g o) :
    (∃ w, m = ⟨some w, some w, some 0, "exact"⟩) ∨ (∃ w, m = ⟨some w, none, none, "gt_only"⟩)
      ∨ (∃ w, m = ⟨none, some w, none, "ocr_only"⟩) := by
  rw [matchWords_eq_segments] at h
  rcases List.mem_append.mp h with h | h
  · rcases List.mem_append.mp h with h | h
    · exact .inl (mem_exactSegment h)
    · exact .inr (.inl (mem_gtOnlySegment h))
  · exact .inr (.inr (mem_ocrOnlySegment h))

end OcrMetrics

namespace OcrMetrics

/-! ### pickMatch and markUsed lemmas -/

theorem insertByOrder_perm (i : MInfo) (l : List MInfo) :
    List.Perm (insertByOrder i l) (i :: l) := by
  induction l with
  | nil => simp [insertByOrder]
  | cons j js ih =>
    simp only [insertByOrder]
    split
    · exact List.Perm.refl _
    · exact (List.Perm.cons j ih).trans (List.Perm.swap i j js)

theorem sortByOrder_perm (l : List MInfo) : List.Perm (sortByOrder l) l := by
  induction l with
  | nil => simp [sortByOrder]
  | cons i rest ih =>
    exact (insertByOrder_perm i _).trans (ih.cons i)

theorem pickMatch_mem {q : List MInfo} {i : MInfo} (h : pickMatch q = some i) :
    i ∈ q ∧ i.used = false := by
  simp only [pickMatch] at h
  split at h
  · exact absurd h (by simp)
  · rename_i hne
    split at h
    · rename_i j rest hsort
      have hj : i ∈ sortByOrder ((q.filter fun m => !m.used).filter fun m =>
          m.match_type = "exact") := by
        rw [hsort]
        exact (Option.some_inj.mp h) ▸ List.mem_cons_self j rest
      have := (sortByOrder_perm _).mem_iff.mp hj
      have := List.mem_of_mem_filter this
      rcases List.mem_filter.mp this with ⟨hq, hu⟩
      exact ⟨hq, by simpa using hu⟩
    · have hmem := List.mem_of_mem_head? h
      have := (sortByOrder_perm _).mem_iff.mp hmem
      rcases List.mem_filter.mp this with ⟨hq, hu⟩
      exact ⟨hq, by simpa using hu⟩

theorem pickMatch_eq_none {q : List MInfo} (h : ∀ e ∈ q, e.used = true) :
    pickMatch q = none := by
  simp only [pickMatch]
  have : (q.filter fun m => !m.used) = [] := by
    rw [List.filter_eq_nil_iff]
    intro e he
    simp [h e he]
  rw [this]
  simp

theorem pickMatch_isSome {q : List MInfo} {e : MInfo} (he : e ∈ q) (hu : e.used = false) :
    ∃ i, pickMatch q = some i := by
  simp only [pickMatch]
  have hmem : e ∈ q.filter fun m => !m.used := List.mem_filter.mpr ⟨he, by simp [hu]⟩
  have hne : ¬ (q.filter fun m => !m.used).isEmpty = true := by
    simp only [List.isEmpty_eq_true]
    intro hnil
    rw [hnil] at hmem
    exact absurd hmem (List.not_mem_nil e)
  rw [if_neg hne]
  split
  · exact ⟨_, rfl⟩
  · rename_i hsort
    rcases hs : sortByOrder (q.filter fun m => !m.used) with _ | ⟨a, t⟩
    · have := (sortByOrder_perm (q.filter fun m => !m.used)).mem_iff.mpr hmem
      rw [hs] at this
      exact absurd this (List.not_mem_nil e)
    · exact ⟨a, by simp [hs]⟩

theorem pickMatch_exact {q : List MInfo} {e : MInfo} (he : e ∈ q) (hu : e.used = false)
    (hx : e.match_type = "exact") :
    ∃ i, pickMatch q = some i ∧ i.match_type = "exact" := by
  simp only [pickMatch]
  have hmem : e ∈ q.filter fun m => !m.used := List.mem_filter.mpr ⟨he, by simp [hu]⟩
  have hne : ¬ (q.filter fun m => !m.used).isEmpty = true := by
    simp only [List.isEmpty_eq_true]
    intro hnil
    rw [hnil] at hmem
    exact absurd hmem (List.not_mem_nil e)
  rw [if_neg hne]
  have hmem2 : e ∈ (q.filter fun m => !m.used).filter fun m => m.match_type = "exact" :=
    List.mem_filter.mpr ⟨hmem, by simp [hx]⟩
  rcases hs : sortByOrder ((q.filter fun m => !m.used).filter fun m =>
      m.match_type = "exact") with _ | ⟨a, t⟩
  · have := (sortByOrder_perm _).mem_iff.mpr hmem2
    rw [hs] at this
    exact absurd this (List.not_mem_nil e)
  · refine ⟨a, by rw [hs], ?_⟩
    have ha : a ∈ sortByOrder ((q.filter fun m => !m.used).filter fun m =>
        m.match_type = "exact") := by
      rw [hs]; exact List.mem_cons_self a t
    have := (sortByOrder_perm _).mem_iff.mp ha
    rcases List.mem_filter.mp this with ⟨_, hx'⟩
    simpa using hx'

theorem markUsed_mem {o : Nat} {q : List MInfo} {e : MInfo} (h : e ∈ markUsed o q) :
    ∃ e₀ ∈ q, e = if e₀.order = o then { e₀ with used := true } else e₀ := by
  rcases List.mem_map.mp h with ⟨e₀, he₀, rfl⟩
  exact ⟨e₀, he₀, rfl⟩

theorem markUsed_order {o : Nat} {q : List MInfo} {e : MInfo} (h : e ∈ markUsed o q) :
    ∃ e₀ ∈ q, e.order = e₀.order := by
  rcases markUsed_mem h with ⟨e₀, he₀, rfl⟩
  split <;> exact ⟨e₀, he₀, rfl⟩

end OcrMetrics

namespace OcrMetrics

/-! ### The consume-once invariant of the annotation walk -/

theorem annotateGo_cons (b : Bool) (mp : Option String → List MInfo) (t : Token)
    (ts : List Token) :
    annotateGo b mp (t :: ts) =
      if (mp (some t.normalized)).isEmpty then
        ((unmatchedAnnot b t.original) :: (annotateGo b mp ts).1, (annotateGo b mp ts).2)
      else
        match pickMatch (mp (some t.normalized)) with
        | some info =>
          ((annotationOf t.original info) ::
              (annotateGo b (fun k => if k = some t.normalized then
                markUsed info.order (mp (some t.normalized)) else mp k) ts).1,
            info.order ::
              (annotateGo b (fun k => if k = some t.normalized then
                markUsed info.order (mp (some t.normalized)) else mp k) ts).2)
        | none =>
          ((unmatchedAnnot b t.original) :: (annotateGo b mp ts).1,
            (annotateGo b mp ts).2) := rfl

theorem annotateGo_consumed_nodup (b : Bool) :
    ∀ (ts : List Token) (mp : Option String → List MInfo) (S : List Nat),
      OrdersInj mp → UsedOrders mp S →
      (annotateGo b mp ts).2.Nodup ∧ ∀ o ∈ (annotateGo b mp ts).2, o ∉ S := by
  intro ts
  induction ts with
  | nil =>
    intro mp S _ _
    constructor
    · exact List.nodup_nil
    · intro o ho
      exact absurd ho (List.not_mem_nil o)
  | cons t rest ih =>
    intro mp S hinj hused
    rw [annotateGo_cons]
    by_cases hq : (mp (some t.normalized)).isEmpty
    · rw [if_pos hq]
      exact ih mp S hinj hused
    · rw [if_neg hq]
      cases hpick : pickMatch (mp (some t.normalized)) with
      | none => exact ih mp S hinj hused
      | some info =>
        obtain ⟨hmem, hunused⟩ := pickMatch_mem hpick
        have hniS : info.order ∉ S := by
          intro hin
          have := hused _ _ hmem hin
          rw [hunused] at this
          exact Bool.noConfusion this
        have hinj' : OrdersInj (fun k => if k = some t.normalized then
            markUsed info.order (mp (some t.normalized)) else mp k) := by
          intro k₁ k₂ e₁ e₂ h₁ h₂ heq
          have back : ∀ k (e : MInfo),
              e ∈ (if k = some t.normalized then
                markUsed info.order (mp (some t.normalized)) else mp k) →
              ∃ e₀ ∈ mp k, e.order = e₀.order := by
            intro k e he
            by_cases hk : k = some t.normalized
            · rw [if_pos hk] at he
              subst hk
              exact markUsed_order he
            · rw [if_neg hk] at he
              exact ⟨e, he, rfl⟩
          rcases back k₁ e₁ h₁ with ⟨f₁, hf₁, ho₁⟩
          rcases back k₂ e₂ h₂ with ⟨f₂, hf₂, ho₂⟩
          exact hinj k₁ k₂ f₁ f₂ hf₁ hf₂ (by omega)
        have hused' : UsedOrders (fun k => if k = some t.normalized then
            markUsed info.order (mp (some t.normalized)) else mp k) (info.order :: S) := by
          intro k e he hin
          dsimp only at he
          by_cases hk : k = some t.normalized
          · rw [if_pos hk] at he
            rcases markUsed_mem he with ⟨e₀, he₀, rfl⟩
            by_cases ho : e₀.order = info.order
            · rw [if_pos ho]
            · rw [if_neg ho]
              rw [if_neg ho] at hin
              rcases List.mem_cons.mp hin with heq | hin'
              · exact absurd heq ho
              · exact hused k e₀ (hk ▸ he₀) hin'
          · rw [if_neg hk] at he
            rcases List.mem_cons.mp hin with heq | hin'
            · exact absurd (hinj k (some t.normalized) e info he hmem heq) hk
            · exact hused k e he hin'
        obtain ⟨hnd, havoid⟩ := ih _ (info.order :: S) hinj' hused'
        constructor
        · exact List.nodup_cons.mpr
            ⟨fun h => (havoid _ h) (List.mem_cons_self _ _), hnd⟩
        · intro o ho
          rcases List.mem_cons.mp ho with rfl | ho'
          · exact hniS
          · intro hoS
            exact (havoid _ ho') (List.mem_cons_of_mem _ hoS)

theorem buildMatchMap_mem {ms : List MatchRec} {b : Bool} {k : Option String} {e : MInfo}
    (h : e ∈ buildMatchMap ms b k) :
    ∃ i m, ms[i]? = some m ∧ m.matchType ∈ sideTypes b ∧ sideKey b m = k ∧
      e = { matched_with := sidePartner b m, edit_distance := m.editDist,
            match_type := m.matchType,
            match_id := if m.matchType = "exact" then some (mkMatchId i) else none,
            order := i, used := false } := by
  unfold buildMatchMap at h
  rcases List.mem_filterMap.mp h with ⟨p, hp, hsome⟩
  have hget : ms[p.1]? = some p.2 := List.mem_enum_iff_getElem?.mp hp
  by_cases hc : p.2.matchType ∈ sideTypes b ∧ sideKey b p.2 = k
  · rw [if_pos hc] at hsome
    exact ⟨p.1, p.2, hget, hc.1, hc.2, (Option.some_inj.mp hsome).symm⟩
  · rw [if_neg hc] at hsome
    exact absurd hsome (by simp)

theorem buildMatchMap_ordersInj (ms : List MatchRec) (b : Bool) :
    OrdersInj (buildMatchMap ms b) := by
  intro k₁ k₂ e₁ e₂ h₁ h₂ heq
  rcases buildMatchMap_mem h₁ with ⟨i₁, m₁, hg₁, _, hk₁, he₁⟩
  rcases buildMatchMap_mem h₂ with ⟨i₂, m₂, hg₂, _, hk₂, he₂⟩
  have hi : i₁ = i₂ := by
    have : e₁.order = i₁ := by rw [he₁]
    have : e₂.order = i₂ := by rw [he₂]
    omega
  subst hi
  have : m₁ = m₂ := by
    rw [hg₁] at hg₂
    exact Option.some_inj.mp hg₂
  subst this
  rw [← hk₁, ← hk₂]

theorem buildMatchMap_unused (ms : List MatchRec) (b : Bool) (k : Option String) :
    ∀ e ∈ buildMatchMap ms b k, e.used = false := by
  intro e he
  rcases buildMatchMap_mem he with ⟨i, m, _, _, _, rfl⟩
  rfl

end OcrMetrics

namespace OcrMetrics

/-! ### FIFO characterization of the walk on fresh queues -/

theorem useFirst_zero (q : List MInfo) : useFirst 0 q = q := by
  cases q <;> rfl

theorem useFirst_length (q : List MInfo) : ∀ n, (useFirst n q).length = q.length := by
  induction q with
  | nil => intro n; cases n <;> rfl
  | cons e t ih =>
    intro n
    cases n with
    | zero => rfl
    | succ m => simp [useFirst, ih m]

theorem useFirst_of_ge (q : List MInfo) : ∀ n, q.length ≤ n →
    useFirst n q = q.map fun e => { e with used := true } := by
  induction q with
  | nil => intro n _; cases n <;> rfl
  | cons e t ih =>
    intro n hn
    cases n with
    | zero => simp at hn
    | succ m =>
      simp only [useFirst, List.map_cons]
      rw [ih m (by simpa using hn)]

theorem filter_unused_useFirst {q : List MInfo} (h : ∀ e ∈ q, e.used = false) :
    ∀ c, (useFirst c q).filter (fun m => !m.used) = q.drop c := by
  induction q with
  | nil => intro c; cases c <;> rfl
  | cons e t ih =>
    intro c
    cases c with
    | zero =>
      rw [useFirst_zero, List.drop_zero]
      apply List.filter_eq_self.mpr
      intro a ha
      simp [h a ha]
    | succ m =>
      simp only [useFirst, List.filter_cons]
      have : ((({ e with used := true } : MInfo)).used = true) := rfl
      simp only [this, Bool.not_true]
      rw [ih (fun a ha => h a (List.mem_cons_of_mem e ha)) m]
      simp

theorem sortByOrder_sorted {l : List MInfo} (h : l.Pairwise fun a b => a.order ≤ b.order) :
    sortByOrder l = l := by
  induction l with
  | nil => rfl
  | cons i rest ih =>
    rcases List.pairwise_cons.mp h with ⟨hi, ht⟩
    simp only [sortByOrder]
    rw [ih ht]
    cases rest with
    | nil => rfl
    | cons j js =>
      simp only [insertByOrder]
      rw [if_pos (hi j (List.mem_cons_self j js))]

theorem exact_head_of_mem {d : List MInfo}
    (hxf : d.Pairwise fun a b => b.match_type = "exact" → a.match_type = "exact")
    {y : MInfo} (hy : y ∈ d) (hyx : y.match_type = "exact") :
    ∃ x rest, d = x :: rest ∧ x.match_type = "exact" := by
  cases d with
  | nil => exact absurd hy (List.not_mem_nil y)
  | cons x rest =>
    refine ⟨x, rest, rfl, ?_⟩
    rcases List.mem_cons.mp hy with rfl | hy'
    · exact hyx
    · exact (List.pairwise_cons.mp hxf).1 y hy' hyx

theorem pickMatch_useFirst {q : List MInfo}
    (hsort : q.Pairwise fun a b => a.order < b.order)
    (hunused : ∀ e ∈ q, e.used = false)
    (hxf : q.Pairwise fun a b => b.match_type = "exact" → a.match_type = "exact")
    {c : Nat} (hc : c < q.length) :
    pickMatch (useFirst c q) = some (q.get ⟨c, hc⟩) := by
  simp only [pickMatch]
  rw [filter_unused_useFirst hunused]
  have hne : ¬ (q.drop c).isEmpty = true := by
    simp only [List.isEmpty_eq_true, List.drop_eq_nil_iff]
    omega
  rw [if_neg hne]
  have hdrop : q.drop c = q.get ⟨c, hc⟩ :: q.drop (c + 1) := by
    rw [List.drop_eq_getElem_cons hc]
    rfl
  have hsort_drop : (q.drop c).Pairwise fun a b => a.order ≤ b.order :=
    (List.Pairwise.sublist (List.drop_sublist c q) hsort).imp fun hab => Nat.le_of_lt hab
  have hxf_drop : (q.drop c).Pairwise fun a b => b.match_type = "exact" → a.match_type = "exact" :=
    List.Pairwise.sublist (List.drop_sublist c q) hxf
  by_cases hex : ∃ y ∈ (q.drop c).filter fun m => m.match_type = "exact", True
  · rcases hex with ⟨y, hy, -⟩
    rcases List.mem_filter.mp hy with ⟨hyd, hyx⟩
    rcases exact_head_of_mem hxf_drop hyd (by simpa using hyx) with ⟨x, rest, hd, hx⟩
    have hfilter : (q.drop c).filter (fun m => m.match_type = "exact") =
        x :: (rest.filter fun m => m.match_type = "exact") := by
      rw [hd, List.filter_cons, if_pos (by simpa using hx)]
    have hsorted_filter : ((q.drop c).filter fun m => m.match_type = "exact").Pairwise
        fun a b => a.order ≤ b.order :=
      List.Pairwise.sublist (List.filter_sublist _) hsort_drop
    rw [hfilter] at hsorted_filter ⊢
    rw [sortByOrder_sorted hsorted_filter]
    have hxhead : x = q.get ⟨c, hc⟩ := by
      have := hdrop
      rw [hd] at this
      exact ((List.cons.injEq _ _ _ _).mp this.symm).1.symm
    rw [hxhead]
  · have hnil : ((q.drop c).filter fun m => m.match_type = "exact") = [] := by
      rcases hfe : (q.drop c).filter (fun m => m.match_type = "exact") with _ | ⟨a, t⟩
      · exact hfe
      · exact absurd ⟨a, by rw [hfe]; exact List.mem_cons_self a t, trivial⟩ hex
    rw [hnil, sortByOrder_sorted hsort_drop, hdrop]
    rfl

theorem pickMatch_useFirst_none {q : List MInfo} (hunused : ∀ e ∈ q, e.used = false)
    {c : Nat} (hc : q.length ≤ c) :
    pickMatch (useFirst c q) = none := by
  simp only [pickMatch]
  rw [filter_unused_useFirst hunused]
  have : q.drop c = [] := List.drop_eq_nil_iff.mpr hc
  rw [this]
  rfl

theorem markUsed_useFirst {q : List MInfo}
    (hsort : q.Pairwise fun a b => a.order < b.order) :
    ∀ c (hc : c < q.length),
      markUsed (q.get ⟨c, hc⟩).order (useFirst c q) = useFirst (c + 1) q := by
  induction q with
  | nil => intro c hc; simp at hc
  | cons e t ih =>
    intro c hc
    rcases List.pairwise_cons.mp hsort with ⟨he, ht⟩
    cases c with
    | zero =>
      rw [useFirst_zero]
      show markUsed e.order (e :: t) = { e with used := true } :: useFirst 0 t
      rw [useFirst_zero]
      unfold markUsed
      rw [List.map_cons, if_pos rfl]
      congr 1
      have hmap : List.map (fun m : MInfo =>
          if m.order = e.order then { m with used := true } else m) t = List.map id t :=
        List.map_congr_left fun x hx => by rw [if_neg (Nat.ne_of_gt (he x hx))]; rfl
      rw [hmap, List.map_id]
    | succ m =>
      have hm : m < t.length := by simpa using hc
      show markUsed ((e :: t).get ⟨m + 1, hc⟩).order
          ({ e with used := true } :: useFirst m t) = _
      have hget : (e :: t).get ⟨m + 1, hc⟩ = t.get ⟨m, hm⟩ := rfl
      rw [hget]
      unfold markUsed
      rw [List.map_cons]
      have hne : ({ e with used := true } : MInfo).order ≠ (t.get ⟨m, hm⟩).order := by
        show e.order ≠ (t.get ⟨m, hm⟩).order
        exact Nat.ne_of_lt (he _ (List.get_mem t m hm))
      rw [if_neg hne]
      show _ :: markUsed (t.get ⟨m, hm⟩).order (useFirst m t) = _
      rw [ih ht m hm]
      rfl

end OcrMetrics

namespace OcrMetrics

/-! ### The walk equals its closed form on fresh queues -/

theorem annsOf_cons (b : Bool) (mp : Option String → List MInfo) (cnt : Option String → Nat)
    (t : Token) (ts : List Token) :
    annsOf b mp cnt (t :: ts) =
      (if h : cnt (some t.normalized) < (mp (some t.normalized)).length then
        annotationOf t.original ((mp (some t.normalized)).get ⟨cnt (some t.normalized), h⟩)
      else unmatchedAnnot b t.original) ::
        annsOf b mp (fun j => if j = some t.normalized then cnt (some t.normalized) + 1 else cnt j)
          ts := rfl

theorem annotateGo_eq_annsOf (b : Bool) (mp0 : Option String → List MInfo)
    (hgood : GoodMap mp0) :
    ∀ (ts : List Token) (cnt : Option String → Nat),
      (annotateGo b (fun k => useFirst (cnt k) (mp0 k)) ts).1 = annsOf b mp0 cnt ts := by
  intro ts
  induction ts with
  | nil => intro cnt; rfl
  | cons t rest ih =>
    intro cnt
    obtain ⟨hsort, hunused, hxf⟩ := hgood (some t.normalized)
    rw [annotateGo_cons, annsOf_cons]
    by_cases hc : cnt (some t.normalized) < (mp0 (some t.normalized)).length
    · have hpick := pickMatch_useFirst hsort hunused hxf hc
      have hmark := markUsed_useFirst hsort (cnt (some t.normalized)) hc
      have hne : ¬ (useFirst (cnt (some t.normalized)) (mp0 (some t.normalized))).isEmpty
          = true := by
        simp only [List.isEmpty_eq_true]
        intro hnil
        have hl := useFirst_length (mp0 (some t.normalized)) (cnt (some t.normalized))
        rw [hnil] at hl
        simp only [List.length_nil] at hl
        omega
      rw [if_neg hne, dif_pos hc]
      cases hp : pickMatch (useFirst (cnt (some t.normalized)) (mp0 (some t.normalized))) with
      | none =>
        rw [hp] at hpick
        exact absurd hpick (by simp)
      | some info =>
        have hinfo : info = (mp0 (some t.normalized)).get ⟨cnt (some t.normalized), hc⟩ := by
          rw [hp] at hpick
          exact Option.some_inj.mp hpick
        subst hinfo
        show _ :: _ = _ :: _
        congr 1
        have hmapeq : (fun k => if k = some t.normalized then
              markUsed ((mp0 (some t.normalized)).get ⟨cnt (some t.normalized), hc⟩).order
                (useFirst (cnt (some t.normalized)) (mp0 (some t.normalized)))
              else useFirst (cnt k) (mp0 k)) =
            fun k => useFirst (if k = some t.normalized then
              cnt (some t.normalized) + 1 else cnt k) (mp0 k) := by
          funext k
          by_cases hk : k = some t.normalized
          · subst hk
            rw [if_pos rfl, if_pos rfl, hmark]
          · rw [if_neg hk, if_neg hk]
        rw [hmapeq]
        exact ih fun j => if j = some t.normalized then cnt (some t.normalized) + 1 else cnt j
    · have hlen : (mp0 (some t.normalized)).length ≤ cnt (some t.normalized) := by omega
      rw [dif_neg hc]
      have hmapeq : (fun k => useFirst (cnt k) (mp0 k)) =
          fun k => useFirst (if k = some t.normalized then
            cnt (some t.normalized) + 1 else cnt k) (mp0 k) := by
        funext k
        by_cases hk : k = some t.normalized
        · subst hk
          rw [if_pos rfl, useFirst_of_ge _ _ hlen, useFirst_of_ge _ _ (by omega)]
        · rw [if_neg hk]
      have htail : (annotateGo b (fun k => useFirst (cnt k) (mp0 k)) rest).1 =
          annsOf b mp0 (fun j => if j = some t.normalized then
            cnt (some t.normalized) + 1 else cnt j) rest := by
        rw [hmapeq]
        exact ih fun j => if j = some t.normalized then cnt (some t.normalized) + 1 else cnt j
      by_cases hq : (useFirst (cnt (some t.normalized)) (mp0 (some t.normalized))).isEmpty
      · rw [if_pos hq]
        show _ :: _ = _ :: _
        rw [htail]
      · rw [if_neg hq]
        have hall : ∀ e ∈ useFirst (cnt (some t.normalized)) (mp0 (some t.normalized)),
            e.used = true := by
          intro e he
          rw [useFirst_of_ge _ _ hlen] at he
          rcases List.mem_map.mp he with ⟨e₀, _, rfl⟩
          rfl
        rw [pickMatch_eq_none hall]
        show _ :: _ = _ :: _
        rw [htail]

theorem createAnnotations_eq_annsOf (wordData : List Token) (ms : List MatchRec) (b : Bool)
    (hgood : GoodMap (buildMatchMap ms b)) :
    createAnnotations wordData ms b =
      annsOf b (buildMatchMap ms b) (fun _ => 0) wordData := by
  unfold createAnnotations
  have h := annotateGo_eq_annsOf b (buildMatchMap ms b) hgood wordData (fun _ => 0)
  have h2 : (fun k => useFirst 0 (buildMatchMap ms b k)) = buildMatchMap ms b :=
    funext fun k => useFirst_zero _
  rw [h2] at h
  exact h

end OcrMetrics

namespace OcrMetrics

/-! ### Fresh queues from grouped match lists -/

theorem enumFrom_pairwise {R : MatchRec → MatchRec → Prop} :
    ∀ (l : List MatchRec) (n : Nat), l.Pairwise R →
      (l.enumFrom n).Pairwise fun p q => p.1 < q.1 ∧ R p.2 q.2 := by
  intro l
  induction l with
  | nil => intro n _; simp
  | cons a t ih =>
    intro n h
    rcases List.pairwise_cons.mp h with ⟨ha, ht⟩
    rw [List.enumFrom_cons]
    refine List.Pairwise.cons ?_ (ih (n + 1) ht)
    rintro ⟨i, x⟩ hx
    rcases (List.mk_mem_enumFrom_iff_le_and_getElem?_sub).mp hx with ⟨hle, hget⟩
    exact ⟨by omega, ha x (List.getElem?_mem hget)⟩

theorem pairwise_filterMap_of {α β : Type} {R : α → α → Prop} {S : β → β → Prop}
    (f : α → Option β) (H : ∀ a a', R a a' → ∀ c ∈ f a, ∀ d ∈ f a', S c d) :
    ∀ {l : List α}, l.Pairwise R → (l.filterMap f).Pairwise S := by
  intro l
  induction l with
  | nil => intro _; simp
  | cons a l' ih =>
    intro h
    rcases List.pairwise_cons.mp h with ⟨ha, ht⟩
    rw [List.filterMap_cons]
    cases hf : f a with
    | none => exact ih ht
    | some c =>
      refine List.Pairwise.cons ?_ (ih ht)
      intro d hd
      rcases List.mem_filterMap.mp hd with ⟨a', ha', hfa'⟩
      refine H a a' (ha a' ha') c (by simp [hf]) d (by simp [hfa'])

theorem pairwise_true (l : List MatchRec) : l.Pairwise fun _ _ => True := by
  induction l with
  | nil => exact List.Pairwise.nil
  | cons a t ih => exact List.Pairwise.cons (fun _ _ => trivial) ih

theorem typeRank_eq_zero_iff (m : MatchRec) : typeRank m = 0 ↔ m.matchType = "exact" := by
  unfold typeRank
  by_cases h : m.matchType = "exact"
  · simp [h]
  · by_cases h' : m.matchType = "gt_only" <;> simp [h, h']

theorem buildMatchMap_goodQueue {ms : List MatchRec}
    (hrank : ms.Pairwise fun a b => typeRank a ≤ typeRank b) (b : Bool) (k : Option String) :
    GoodQueue (buildMatchMap ms b k) := by
  refine ⟨?_, buildMatchMap_unused ms b k, ?_⟩
  · unfold buildMatchMap
    have henum := enumFrom_pairwise (R := fun _ _ => True) ms 0 (pairwise_true ms)
    exact pairwise_filterMap_of _ (fun p q hpq e he e' he' => by
      have he2 : e.order = p.1 := by
        by_cases hc : p.2.matchType ∈ sideTypes b ∧ sideKey b p.2 = k
        · rw [if_pos hc] at he
          rcases List.mem_singleton.mp (by simpa using he) with rfl
          rfl
        · rw [if_neg hc] at he
          exact absurd he (by simp)
      have he2' : e'.order = q.1 := by
        by_cases hc : q.2.matchType ∈ sideTypes b ∧ sideKey b q.2 = k
        · rw [if_pos hc] at he'
          rcases List.mem_singleton.mp (by simpa using he') with rfl
          rfl
        · rw [if_neg hc] at he'
          exact absurd he' (by simp)
      rw [he2, he2']
      exact hpq.1) henum
  · unfold buildMatchMap
    have henum := enumFrom_pairwise (R := fun a b' => typeRank a ≤ typeRank b') ms 0 hrank
    exact pairwise_filterMap_of _ (fun p q hpq e he e' he' => by
      have he2 : e.match_type = p.2.matchType := by
        by_cases hc : p.2.matchType ∈ sideTypes b ∧ sideKey b p.2 = k
        · rw [if_pos hc] at he
          rcases List.mem_singleton.mp (by simpa using he) with rfl
          rfl
        · rw [if_neg hc] at he
          exact absurd he (by simp)
      have he2' : e'.match_type = q.2.matchType := by
        by_cases hc : q.2.matchType ∈ sideTypes b ∧ sideKey b q.2 = k
        · rw [if_pos hc] at he'
          rcases List.mem_singleton.mp (by simpa using he') with rfl
          rfl
        · rw [if_neg hc] at he'
          exact absurd he' (by simp)
      intro hex
      rw [he2'] at hex
      rw [he2]
      have hq0 : typeRank q.2 = 0 := (typeRank_eq_zero_iff q.2).mpr hex
      have := hpq.2
      exact (typeRank_eq_zero_iff p.2).mp (by omega)) henum

theorem buildMatchMap_goodMap {ms : List MatchRec}
    (hrank : ms.Pairwise fun a b => typeRank a ≤ typeRank b) (b : Bool) :
    GoodMap (buildMatchMap ms b) :=
  fun k => buildMatchMap_goodQueue hrank b k

end OcrMetrics

namespace OcrMetrics

/-! ### match_id discipline of the walk -/

theorem buildMatchMap_idTypeOk (ms : List MatchRec) (b : Bool) :
    IdTypeOk (buildMatchMap ms b) := by
  intro k e he
  rcases buildMatchMap_mem he with ⟨i, m, _, _, _, rfl⟩
  by_cases hx : m.matchType = "exact"
  · simp [hx]
  · simp [hx]

theorem annotateGo_idTypeOk (b : Bool) :
    ∀ (ts : List Token) (mp : Option String → List MInfo), IdTypeOk mp →
      ∀ a ∈ (annotateGo b mp ts).1, ((a.match_id ≠ none) ↔ a.match_type = "exact") := by
  intro ts
  induction ts with
  | nil =>
    intro mp _ a ha
    exact absurd ha (List.not_mem_nil a)
  | cons t rest ih =>
    intro mp hok a ha
    rw [annotateGo_cons] at ha
    have hunm : ((unmatchedAnnot b t.original).match_id ≠ none) ↔
        (unmatchedAnnot b t.original).match_type = "exact" := by
      cases b <;> simp [unmatchedAnnot]
    by_cases hq : (mp (some t.normalized)).isEmpty
    · rw [if_pos hq] at ha
      rcases List.mem_cons.mp ha with rfl | ha'
      · exact hunm
      · exact ih mp hok a ha'
    · rw [if_neg hq] at ha
      cases hp : pickMatch (mp (some t.normalized)) with
      | none =>
        rw [hp] at ha
        rcases List.mem_cons.mp ha with rfl | ha'
        · exact hunm
        · exact ih mp hok a ha'
      | some info =>
        rw [hp] at ha
        rcases List.mem_cons.mp ha with rfl | ha'
        · have := hok _ _ (pickMatch_mem hp).1
          simpa [annotationOf] using this
        · refine ih _ ?_ a ha'
          intro k e he
          dsimp only at he
          by_cases hk : k = some t.normalized
          · rw [if_pos hk] at he
            rcases markUsed_mem he with ⟨e₀, he₀, rfl⟩
            have h0 := hok _ _ (hk ▸ he₀)
            split <;> simpa using h0
          · rw [if_neg hk] at he
            exact hok k e he

theorem annsOf_length (b : Bool) (mp0 : Option String → List MInfo) :
    ∀ (ts : List Token) (cnt : Option String → Nat),
      (annsOf b mp0 cnt ts).length = ts.length := by
  intro ts
  induction ts with
  | nil => intro cnt; rfl
  | cons t rest ih =>
    intro cnt
    rw [annsOf_cons]
    simp [ih]

end OcrMetrics

namespace OcrMetrics

/-! ### Per-word extraction from the walk -/

theorem annsOf_filter_extract (b : Bool) (mp0 : Option String → List MInfo) (w : String)
    {β : Type} (φ : MInfo → Option β) (ψ : Annotation → Option β)
    (hcompat : ∀ orig e, ψ (annotationOf orig e) = φ e) :
    ∀ (ts : List Token) (cnt : Option String → Nat),
      cnt (some w) + ts.countP (fun t => t.normalized = w) ≤ (mp0 (some w)).length →
      ((ts.zip (annsOf b mp0 cnt ts)).filterMap fun p =>
          if p.1.normalized = w then ψ p.2 else none)
        = (((mp0 (some w)).drop (cnt (some w))).take
            (ts.countP fun t => t.normalized = w)).filterMap φ := by
  intro ts
  induction ts with
  | nil =>
    intro cnt _
    simp
  | cons t rest ih =>
    intro cnt hle
    rw [annsOf_cons, List.zip_cons_cons, List.filterMap_cons]
    by_cases ht : t.normalized = w
    · subst ht
      have hcount : ((t :: rest).countP fun t' => t'.normalized = t.normalized) =
          (rest.countP fun t' => t'.normalized = t.normalized) + 1 := by
        rw [List.countP_cons]
        simp
      rw [hcount] at hle
      have hlt : cnt (some t.normalized) < (mp0 (some t.normalized)).length := by omega
      have htail := ih (fun j => if j = some t.normalized then
          cnt (some t.normalized) + 1 else cnt j) (by simp; omega)
      have hcnt' : ((fun j => if j = some t.normalized then
          cnt (some t.normalized) + 1 else cnt j) (some t.normalized)) =
          cnt (some t.normalized) + 1 := by simp
      rw [hcnt'] at htail
      rw [dif_pos hlt, if_pos rfl, hcompat, hcount]
      have hdrop : (mp0 (some t.normalized)).drop (cnt (some t.normalized)) =
          (mp0 (some t.normalized)).get ⟨cnt (some t.normalized), hlt⟩ ::
            (mp0 (some t.normalized)).drop (cnt (some t.normalized) + 1) := by
        rw [List.drop_eq_getElem_cons hlt]
        rfl
      rw [hdrop, List.take_succ_cons, List.filterMap_cons, htail]
    · have hcount : ((t :: rest).countP fun t' => t'.normalized = w) =
          rest.countP fun t' => t'.normalized = w := by
        rw [List.countP_cons]
        simp [ht]
      rw [hcount] at hle
      have hkey : ((some w : Option String) = some t.normalized) → False := by
        intro h
        exact ht (Option.some_inj.mp h).symm
      have htail := ih (fun j => if j = some t.normalized then
          cnt (some t.normalized) + 1 else cnt j) (by
        simp only [if_neg hkey]
        exact hle)
      have hcnt' : ((fun j => if j = some t.normalized then
          cnt (some t.normalized) + 1 else cnt j) (some w)) = cnt (some w) := by
        simp only [if_neg hkey]
      rw [hcnt'] at htail
      rw [if_neg ht, htail, hcount]

end OcrMetrics

namespace OcrMetrics

/-! ### Queue lengths and the shared exact identifiers -/

theorem length_filterMap_isSome {α β : Type} (f : α → Option β) :
    ∀ (l : List α), (l.filterMap f).length = l.countP fun a => (f a).isSome := by
  intro l
  induction l with
  | nil => simp
  | cons a t ih =>
    rw [List.filterMap_cons, List.countP_cons]
    cases hf : f a with
    | none => simp [hf, ih]
    | some b => simp [hf, ih]

theorem countP_enumFrom (P : MatchRec → Bool) :
    ∀ (l : List MatchRec) (n : Nat), (l.enumFrom n).countP (fun p => P p.2) = l.countP P := by
  intro l
  induction l with
  | nil => intro n; rfl
  | cons a t ih =>
    intro n
    rw [List.enumFrom_cons, List.countP_cons, List.countP_cons, ih]

theorem count_filterMap_key {α : Type} (σ : α → Option String) (w : String) :
    ∀ (l : List α), (l.filterMap σ).count w = l.countP fun x => σ x = some w := by
  intro l
  induction l with
  | nil => simp
  | cons a t ih =>
    rw [List.filterMap_cons, List.countP_cons]
    cases hσ : σ a with
    | none => simp [hσ, ih]
    | some v =>
      rw [List.count_cons, ih]
      by_cases hv : v = w
      · simp [hσ, hv]
      · simp [hσ, hv, Ne.symm hv]

theorem buildMatchMap_length (ms : List MatchRec) (b : Bool) (k : Option String) :
    (buildMatchMap ms b k).length =
      ms.countP fun m => (m.matchType ∈ sideTypes b) ∧ sideKey b m = k := by
  unfold buildMatchMap
  rw [length_filterMap_isSome]
  have : ∀ p : Nat × MatchRec,
      ((if p.2.matchType ∈ sideTypes b ∧ sideKey b p.2 = k then
        some { matched_with := sidePartner b p.2, edit_distance := p.2.editDist,
               match_type := p.2.matchType,
               match_id := if p.2.matchType = "exact" then some (mkMatchId p.1) else none,
               order := p.1, used := false } else (none : Option MInfo)).isSome) =
        decide ((p.2.matchType ∈ sideTypes b) ∧ sideKey b p.2 = k) := by
    intro p
    by_cases hc : p.2.matchType ∈ sideTypes b ∧ sideKey b p.2 = k
    · simp [hc]
    · simp [hc]
  rw [List.countP_congr fun p _ => by rw [this p]]
  have henum : ms.enum = ms.enumFrom 0 := rfl
  rw [henum]
  exact countP_enumFrom (fun m => decide ((m.matchType ∈ sideTypes b) ∧ sideKey b m = k)) ms 0

theorem countP_gtKey_eq_count (ms : List MatchRec) (w : String) :
    (ms.countP fun m => (m.matchType ∈ sideTypes true) ∧ sideKey true m = some w)
      = (gtSideWords ms).count w := by
  unfold gtSideWords
  rw [count_filterMap_key]
  apply List.countP_congr
  intro m _
  by_cases h1 : m.matchType = "exact" ∨ m.matchType = "gt_only"
  · have h2 : m.matchType ∈ sideTypes true := by
      rcases h1 with h | h <;> simp [sideTypes, h]
    simp [h1, h2, sideTypes, sideKey]
  · have h2 : ¬ m.matchType ∈ sideTypes true := by
      simp only [sideTypes]
      intro hmem
      rcases List.mem_cons.mp hmem with h | h
      · exact h1 (.inl h)
      · exact h1 (.inr (List.mem_singleton.mp h))
    simp [h1, h2]

theorem countP_ocrKey_eq_count (ms : List MatchRec) (w : String) :
    (ms.countP fun m => (m.matchType ∈ sideTypes false) ∧ sideKey false m = some w)
      = (ocrSideWords ms).count w := by
  unfold ocrSideWords
  rw [count_filterMap_key]
  apply List.countP_congr
  intro m _
  by_cases h1 : m.matchType = "exact" ∨ m.matchType = "ocr_only"
  · have h2 : m.matchType ∈ sideTypes false := by
      rcases h1 with h | h <;> simp [sideTypes, h]
    simp [h1, h2, sideTypes, sideKey]
  · have h2 : ¬ m.matchType ∈ sideTypes false := by
      simp only [sideTypes]
      intro hmem
      rcases List.mem_cons.mp hmem with h | h
      · exact h1 (.inl h)
      · exact h1 (.inr (List.mem_singleton.mp h))
    simp [h1, h2]

theorem gtQueue_length (g o : List String) (w : String) :
    (buildMatchMap (matchWords g o) true (some w)).length = counter g w := by
  rw [buildMatchMap_length, countP_gtKey_eq_count, gtSideWords_count]

theorem ocrQueue_length (g o : List String) (w : String) :
    (buildMatchMap (matchWords g o) false (some w)).length = counter o w := by
  rw [buildMatchMap_length, countP_ocrKey_eq_count, ocrSideWords_count]

theorem filterMap_congr_mem {α β : Type} {f g : α → Option β} :
    ∀ {l : List α}, (∀ a ∈ l, f a = g a) → l.filterMap f = l.filterMap g := by
  intro l
  induction l with
  | nil => intro _; rfl
  | cons a t ih =>
    intro h
    rw [List.filterMap_cons, List.filterMap_cons, h a (List.mem_cons_self a t),
      ih fun x hx => h x (List.mem_cons_of_mem a hx)]

theorem buildMatchMap_filterMap (ms : List MatchRec) (b : Bool) (k : Option String)
    {β : Type} (φ : MInfo → Option β) :
    (buildMatchMap ms b k).filterMap φ = ms.enum.filterMap fun p =>
      if p.2.matchType ∈ sideTypes b ∧ sideKey b p.2 = k then
        φ { matched_with := sidePartner b p.2, edit_distance := p.2.editDist,
            match_type := p.2.matchType,
            match_id := if p.2.matchType = "exact" then some (mkMatchId p.1) else none,
            order := p.1, used := false }
      else none := by
  unfold buildMatchMap
  rw [List.filterMap_filterMap]
  apply filterMap_congr_mem
  intro p _
  by_cases hc : p.2.matchType ∈ sideTypes b ∧ sideKey b p.2 = k
  · simp [hc]
  · simp [hc]

theorem matchWords_queue_ids_eq (g o : List String) (w : String) :
    (buildMatchMap (matchWords g o) true (some w)).filterMap
        (fun e => if e.match_type = "exact" then some e.match_id else none)
      = (buildMatchMap (matchWords g o) false (some w)).filterMap
        (fun e => if e.match_type = "exact" then some e.match_id else none) := by
  rw [buildMatchMap_filterMap, buildMatchMap_filterMap]
  apply filterMap_congr_mem
  rintro ⟨i, m⟩ hp
  have hm : m ∈ matchWords g o := by
    have hget := List.mem_enum_iff_getElem?.mp hp
    exact List.getElem?_mem hget
  rcases mem_matchWords_shape hm with ⟨u, rfl⟩ | ⟨u, rfl⟩ | ⟨u, rfl⟩
  · by_cases hw : u = w
    · subst hw
      simp [sideTypes, sideKey, sidePartner]
    · have h1 : ((some u : Option String) = some w) → False := fun h =>
        hw (Option.some_inj.mp h)
      simp [sideTypes, sideKey, h1]
  · simp [sideTypes, sideKey]
  · simp [sideTypes, sideKey]

end OcrMetrics

namespace OcrMetrics

/-! ### Counting machinery for reproducing match counts -/

theorem sum_map_ite_eq {F : String → Nat} :
    ∀ (ks : List String), ks.Nodup → ∀ (a : String), a ∈ ks →
      (ks.map fun w => if a = w then F w else 0).sum = F a := by
  intro ks
  induction ks with
  | nil => intro _ a ha; exact absurd ha (List.not_mem_nil a)
  | cons w t ih =>
    intro hnd a ha
    rcases List.nodup_cons.mp hnd with ⟨hw, ht⟩
    rw [List.map_cons, List.sum_cons]
    rcases List.mem_cons.mp ha with rfl | ha'
    · rw [if_pos rfl]
      have hz : (t.map fun u => if a = u then F u else 0).sum = 0 := by
        apply List.sum_eq_zero
        intro n hn
        rcases List.mem_map.mp hn with ⟨u, hu, rfl⟩
        rw [if_neg]
        intro h
        exact hw (h ▸ hu)
      rw [hz]
      omega
    · rw [if_neg fun h : a = w => hw (h ▸ ha'), ih ht a ha']
      simp

theorem countP_partition_key {α : Type} (key : α → String) (P : α → Bool) :
    ∀ (l : List α) (ks : List String), ks.Nodup → (∀ x ∈ l, P x = true → key x ∈ ks) →
      l.countP P = (ks.map fun w => l.countP fun x => key x = w ∧ P x = true).sum := by
  intro l
  induction l with
  | nil =>
    intro ks _ _
    rw [List.countP_nil]
    symm
    apply List.sum_eq_zero
    intro n hn
    rcases List.mem_map.mp hn with ⟨u, _, rfl⟩
    rw [List.countP_nil]
  | cons x t ih =>
    intro ks hnd hsub
    rw [List.countP_cons]
    have hterm : ∀ w, (t.countP fun y => key y = w ∧ P y = true)
        + (if (key x = w ∧ P x = true) then 1 else 0)
        = ((x :: t).countP fun y => key y = w ∧ P y = true) := by
      intro w
      rw [List.countP_cons]
      by_cases hc : key x = w ∧ P x = true
      · simp [hc]
      · simp [hc]
    have hmap : (ks.map fun w => (x :: t).countP fun y => key y = w ∧ P y = true)
        = ks.map fun w => (t.countP fun y => key y = w ∧ P y = true)
          + (if (key x = w ∧ P x = true) then 1 else 0) :=
      (List.map_congr_left fun w _ => (hterm w).symm)
    rw [hmap, sum_map_add_distrib]
    rw [← ih ks hnd fun y hy hP => hsub y (List.mem_cons_of_mem x hy) hP]
    by_cases hP : P x = true
    · have hx : key x ∈ ks := hsub x (List.mem_cons_self x t) hP
      have : (ks.map fun w => if (key x = w ∧ P x = true) then 1 else 0).sum
          = (ks.map fun w => if key x = w then 1 else 0).sum := by
        congr 1
        apply List.map_congr_left
        intro w _
        by_cases hw : key x = w
        · simp [hw, hP]
        · simp [hw]
      rw [this, sum_map_ite_eq ks hnd (key x) hx]
      simp [hP]
    · have : (ks.map fun w => if (key x = w ∧ P x = true) then 1 else 0).sum = 0 := by
        apply List.sum_eq_zero
        intro n hn
        rcases List.mem_map.mp hn with ⟨u, _, rfl⟩
        simp [hP]
      rw [this]
      simp [hP]

theorem countP_snd_zip {P : Annotation → Bool} :
    ∀ (ts : List Token) (anns : List Annotation), anns.length = ts.length →
      (ts.zip anns).countP (fun p => P p.2) = anns.countP P := by
  intro ts
  induction ts with
  | nil =>
    intro anns h
    rw [List.length_nil, List.length_eq_zero] at h
    subst h
    rfl
  | cons t rest ih =>
    intro anns h
    cases anns with
    | nil => simp at h
    | cons a anns' =>
      rw [List.zip_cons_cons, List.countP_cons, List.countP_cons]
      rw [ih anns' (by simpa using h)]

theorem countP_filterMap_elim {α β : Type} (f : α → Option β) (P : β → Bool) :
    ∀ l : List α, (l.filterMap f).countP P = l.countP fun a => (f a).elim false P := by
  intro l
  induction l with
  | nil => simp
  | cons a t ih =>
    rw [List.filterMap_cons, List.countP_cons]
    cases hf : f a with
    | none => simp [hf, ih]
    | some b =>
      rw [List.countP_cons, ih]
      simp [hf]

theorem sum_count_eq_length :
    ∀ (l : List String) (ks : List String), ks.Nodup → (∀ x ∈ l, x ∈ ks) →
      (ks.map fun w => l.count w).sum = l.length := by
  intro l
  induction l with
  | nil =>
    intro ks _ _
    rw [List.length_nil]
    apply List.sum_eq_zero
    intro n hn
    rcases List.mem_map.mp hn with ⟨u, _, rfl⟩
    rw [List.count_nil]
  | cons x t ih =>
    intro ks hnd hsub
    have hmap : (ks.map fun w => (x :: t).count w)
        = ks.map fun w => t.count w + (if x = w then 1 else 0) := by
      apply List.map_congr_left
      intro w _
      rw [List.count_cons]
      by_cases hw : x = w
      · simp [hw]
      · simp [hw, fun h : (x == w) = true => hw (by simpa using h)]
    rw [hmap, sum_map_add_distrib, ih ks hnd fun y hy => hsub y (List.mem_cons_of_mem x hy)]
    rw [sum_map_ite_eq ks hnd x (hsub x (List.mem_cons_self x t))]
    simp

end OcrMetrics

namespace OcrMetrics

/-! ### Word membership of records, token counting -/

theorem mem_exactSegment_strong {g o : List String} {m : MatchRec} (h : m ∈ exactSegment g o) :
    ∃ u, m = ⟨some u, some u, some 0, "exact"⟩ ∧ u ∈ g ∧ u ∈ o := by
  rw [exactSegment_eq] at h
  rcases List.mem_flatMap.mp h with ⟨u, hu, hm⟩
  rcases List.mem_replicate.mp hm with ⟨hne, rfl⟩
  refine ⟨u, rfl, ?_, ?_⟩
  · rw [matchedCount_eq_min] at hne
    have : 0 < counter g u := by
      rcases Nat.eq_zero_or_pos (counter g u) with h0 | h0
      · exact absurd (by simp [h0]) hne
      · exact h0
    exact (counter_pos_iff g u).mp this
  · rw [matchedCount_eq_min] at hne
    have : 0 < counter o u := by
      rcases Nat.eq_zero_or_pos (counter o u) with h0 | h0
      · exact absurd (by simp [h0]) hne
      · exact h0
    exact (counter_pos_iff o u).mp this

theorem mem_gtOnlySegment_strong {g o : List String} {m : MatchRec}
    (h : m ∈ gtOnlySegment g o) :
    ∃ u, m = ⟨some u, none, none, "gt_only"⟩ ∧ u ∈ g := by
  rcases List.mem_map.mp h with ⟨u, hu, rfl⟩
  rcases List.mem_flatMap.mp hu with ⟨v, hv, hm⟩
  rcases List.mem_replicate.mp hm with ⟨_, huv⟩
  exact ⟨u, rfl, mem_distinctKeys.mp (by rw [huv]; exact hv)⟩

theorem mem_ocrOnlySegment_strong {g o : List String} {m : MatchRec}
    (h : m ∈ ocrOnlySegment g o) :
    ∃ u, m = ⟨none, some u, none, "ocr_only"⟩ ∧ u ∈ o := by
  rcases List.mem_map.mp h with ⟨u, hu, rfl⟩
  rcases List.mem_flatMap.mp hu with ⟨v, hv, hm⟩
  rcases List.mem_replicate.mp hm with ⟨_, huv⟩
  exact ⟨u, rfl, mem_distinctKeys.mp (by rw [huv]; exact hv)⟩

theorem preprocess_map_normalized (text : String) (config : Config) :
    (preprocessText text config).wordData.map (fun t => t.normalized)
      = (preprocessText text config).words := by
  rw [preprocessText_wordData_eq, preprocessText_words_eq, tokensFrom_map_normalized]

theorem countP_word_of_map {ts : List Token} {R : List String}
    (hmap : ts.map (fun t => t.normalized) = R) (w : String) :
    ts.countP (fun t => t.normalized = w) = counter R w := by
  have h1 : R.countP (fun x => x = w) = ts.countP (fun t => t.normalized = w) := by
    rw [← hmap, List.countP_map]
    rfl
  rw [← h1, counter, List.count_eq_countP]
  apply List.countP_congr
  intro a _
  constructor
  · intro h
    simpa using h
  · intro h
    simpa using h

end OcrMetrics

namespace OcrMetrics

/-! ### Annotation counts reproduce record counts -/

theorem createAnnotations_countP_type (ms : List MatchRec) (ts : List Token) (R : List String)
    (b : Bool) (τ : String)
    (hmap : ts.map (fun t => t.normalized) = R)
    (hrank : ms.Pairwise fun a b' => typeRank a ≤ typeRank b')
    (hlen : ∀ w, (buildMatchMap ms b (some w)).length = counter R w)
    (hkey : ∀ m ∈ ms, m.matchType = τ → ∃ u, sideKey b m = some u ∧ u ∈ R)
    (hside : τ ∈ sideTypes b) :
    (createAnnotations ts ms b).countP (fun a => a.match_type = τ)
      = ms.countP fun m => m.matchType = τ := by
  have hgood := buildMatchMap_goodMap hrank b
  rw [createAnnotations_eq_annsOf ts ms b hgood]
  have hlen_anns : (annsOf b (buildMatchMap ms b) (fun _ => 0) ts).length = ts.length :=
    annsOf_length b (buildMatchMap ms b) ts _
  rw [← countP_snd_zip ts _ hlen_anns]
  have hks_nodup := distinctKeys_nodup R
  have hsub : ∀ p ∈ ts.zip (annsOf b (buildMatchMap ms b) (fun _ => 0) ts),
      (decide (p.2.match_type = τ)) = true → p.1.normalized ∈ distinctKeys R := by
    intro p hp _
    have hp1 : p.1 ∈ ts := (List.of_mem_zip hp).1
    have hmem : p.1.normalized ∈ ts.map fun t => t.normalized := List.mem_map_of_mem _ hp1
    rw [hmap] at hmem
    exact mem_distinctKeys.mpr hmem
  rw [countP_partition_key (fun p => p.1.normalized) _ _ (distinctKeys R) hks_nodup hsub]
  have hterm : ∀ w, ((ts.zip (annsOf b (buildMatchMap ms b) (fun _ => 0) ts)).countP
      fun p => p.1.normalized = w ∧ (decide (p.2.match_type = τ)) = true)
      = ms.countP fun m => m.matchType = τ ∧ sideKey b m = some w := by
    intro w
    have h4 : ((ts.zip (annsOf b (buildMatchMap ms b) (fun _ => 0) ts)).countP
        fun p => p.1.normalized = w ∧ (decide (p.2.match_type = τ)) = true)
        = ((ts.zip (annsOf b (buildMatchMap ms b) (fun _ => 0) ts)).filterMap
            fun p => if p.1.normalized = w then some p.2.match_type else none).count τ := by
      rw [count_filterMap_key]
      apply List.countP_congr
      intro p _
      by_cases h1 : p.1.normalized = w
      · by_cases h2 : p.2.match_type = τ
        · simp [h1, h2]
        · simp [h1, h2]
      · simp [h1]
    rw [h4]
    have hcount : ts.countP (fun t => t.normalized = w) = counter R w :=
      countP_word_of_map hmap w
    have hext := annsOf_filter_extract b (buildMatchMap ms b) w
      (fun e => some e.match_type) (fun a => some a.match_type)
      (fun orig e => rfl) ts (fun _ => 0)
      (by
        show 0 + ts.countP (fun t => t.normalized = w) ≤ (buildMatchMap ms b (some w)).length
        rw [hcount, hlen w]
        omega)
    rw [hext]
    have hslice : ((buildMatchMap ms b (some w)).drop 0).take
        (ts.countP fun t => t.normalized = w) = buildMatchMap ms b (some w) := by
      rw [List.drop_zero, hcount, ← hlen w, List.take_length]
    rw [hslice]
    have h6 : ((buildMatchMap ms b (some w)).filterMap fun e => some e.match_type).count τ
        = (buildMatchMap ms b (some w)).countP fun e => e.match_type = τ := by
      rw [count_filterMap_key]
      apply List.countP_congr
      intro e _
      simp
    rw [h6]
    unfold buildMatchMap
    rw [countP_filterMap_elim]
    have h7 : ∀ p : Nat × MatchRec,
        ((if p.2.matchType ∈ sideTypes b ∧ sideKey b p.2 = some w then
          some { matched_with := sidePartner b p.2, edit_distance := p.2.editDist,
                 match_type := p.2.matchType,
                 match_id := if p.2.matchType = "exact" then some (mkMatchId p.1) else none,
                 order := p.1, used := false } else (none : Option MInfo)).elim false
            (fun e => e.match_type = τ))
        = decide ((p.2.matchType ∈ sideTypes b ∧ sideKey b p.2 = some w) ∧
            p.2.matchType = τ) := by
      intro p
      by_cases hc : p.2.matchType ∈ sideTypes b ∧ sideKey b p.2 = some w
      · by_cases hτ' : p.2.matchType = τ
        · have hts : τ ∈ sideTypes b := hτ' ▸ hc.1
          simp [hc, hτ', hts]
        · simp [hc, hτ']
      · simp [hc]
    rw [List.countP_congr fun p _ => by rw [h7 p]]
    have henum : ms.enum = ms.enumFrom 0 := rfl
    rw [henum, countP_enumFrom
      (fun m => decide ((m.matchType ∈ sideTypes b ∧ sideKey b m = some w) ∧ m.matchType = τ))
      ms 0]
    apply List.countP_congr
    intro m _
    constructor
    · intro h
      have h' := of_decide_eq_true h
      exact decide_eq_true ⟨h'.2, h'.1.2⟩
    · intro h
      have h' := of_decide_eq_true h
      refine decide_eq_true ⟨⟨?_, h'.2⟩, h'.1⟩
      rw [h'.1]
      exact hside
  rw [List.map_congr_left fun w _ => hterm w]
  have h9 : ∀ w, (ms.countP fun m => m.matchType = τ ∧ sideKey b m = some w)
      = (ms.filterMap fun m => if m.matchType = τ then sideKey b m else none).count w := by
    intro w
    rw [count_filterMap_key]
    apply List.countP_congr
    intro m _
    by_cases h1 : m.matchType = τ
    · simp [h1]
    · simp [h1]
  rw [List.map_congr_left fun w _ => h9 w]
  have hmem10 : ∀ x ∈ ms.filterMap fun m => if m.matchType = τ then sideKey b m else none,
      x ∈ distinctKeys R := by
    intro x hx
    rcases List.mem_filterMap.mp hx with ⟨m, hm, hmx⟩
    by_cases h1 : m.matchType = τ
    · rw [if_pos h1] at hmx
      rcases hkey m hm h1 with ⟨u, hu, huR⟩
      have hux : u = x := by
        rw [hu] at hmx
        exact Option.some_inj.mp hmx
      exact mem_distinctKeys.mpr (hux ▸ huR)
    · rw [if_neg h1] at hmx
      exact absurd hmx (by simp)
  rw [sum_count_eq_length _ (distinctKeys R) hks_nodup hmem10]
  rw [length_filterMap_isSome]
  apply List.countP_congr
  intro m hm
  by_cases h1 : m.matchType = τ
  · rcases hkey m hm h1 with ⟨u, hu, _⟩
    simp [h1, hu]
  · simp [h1]

end OcrMetrics

namespace OcrMetrics

/-! ### The per-word exact identifier lists agree across the two sides -/

theorem pipeline_ids_eq (g o : List String) (tsR tsH : List Token) (w : String)
    (hmapR : tsR.map (fun t => t.normalized) = g)
    (hmapH : tsH.map (fun t => t.normalized) = o) :
    ((tsR.zip (createAnnotations tsR (matchWords g o) true)).filterMap fun p =>
        if p.1.normalized = w ∧ p.2.match_type = "exact" then some p.2.match_id else none)
      = ((tsH.zip (createAnnotations tsH (matchWords g o) false)).filterMap fun p =>
        if p.1.normalized = w ∧ p.2.match_type = "exact" then some p.2.match_id else none) := by
  have hfun : ∀ (p : Token × Annotation),
      (if p.1.normalized = w ∧ p.2.match_type = "exact" then some p.2.match_id else none)
      = (if p.1.normalized = w then
          (fun a : Annotation => if a.match_type = "exact" then some a.match_id else none) p.2
        else none) := by
    intro p
    by_cases h1 : p.1.normalized = w
    · by_cases h2 : p.2.match_type = "exact" <;> simp [h1, h2]
    · simp [h1]
  rw [filterMap_congr_mem fun p _ => hfun p]
  rw [filterMap_congr_mem fun p _ => hfun p]
  have hgood := buildMatchMap_goodMap (matchWords_pairwise_rank g o)
  rw [createAnnotations_eq_annsOf _ _ _ (hgood true)]
  rw [createAnnotations_eq_annsOf _ _ _ (hgood false)]
  have hφψ : ∀ (orig : String) (e : MInfo),
      (fun a : Annotation => if a.match_type = "exact" then some a.match_id else none)
        (annotationOf orig e)
      = (fun e : MInfo => if e.match_type = "exact" then some e.match_id else none) e :=
    fun _ _ => rfl
  have hcountR : tsR.countP (fun t => t.normalized = w) = counter g w :=
    countP_word_of_map hmapR w
  have hcountH : tsH.countP (fun t => t.normalized = w) = counter o w :=
    countP_word_of_map hmapH w
  have hextR := annsOf_filter_extract true (buildMatchMap (matchWords g o) true) w
    (fun e : MInfo => if e.match_type = "exact" then some e.match_id else none)
    (fun a : Annotation => if a.match_type = "exact" then some a.match_id else none)
    hφψ tsR (fun _ => 0)
    (by
      show 0 + tsR.countP (fun t => t.normalized = w)
        ≤ (buildMatchMap (matchWords g o) true (some w)).length
      rw [hcountR, gtQueue_length]
      omega)
  have hextH := annsOf_filter_extract false (buildMatchMap (matchWords g o) false) w
    (fun e : MInfo => if e.match_type = "exact" then some e.match_id else none)
    (fun a : Annotation => if a.match_type = "exact" then some a.match_id else none)
    hφψ tsH (fun _ => 0)
    (by
      show 0 + tsH.countP (fun t => t.normalized = w)
        ≤ (buildMatchMap (matchWords g o) false (some w)).length
      rw [hcountH, ocrQueue_length]
      omega)
  rw [hextR, hextH]
  have hsliceR : ((buildMatchMap (matchWords g o) true (some w)).drop 0).take
      (tsR.countP fun t => t.normalized = w)
      = buildMatchMap (matchWords g o) true (some w) := by
    rw [List.drop_zero, hcountR, ← gtQueue_length g o w, List.take_length]
  have hsliceH : ((buildMatchMap (matchWords g o) false (some w)).drop 0).take
      (tsH.countP fun t => t.normalized = w)
      = buildMatchMap (matchWords g o) false (some w) := by
    rw [List.drop_zero, hcountH, ← ocrQueue_length g o w, List.take_length]
  rw [hsliceR, hsliceH]
  exact matchWords_queue_ids_eq g o w

end OcrMetrics

namespace OcrMetrics

/-! ### Keys of typed records in a matchWords result -/

theorem matchWords_gtKey_exact (g o : List String) :
    ∀ m ∈ matchWords g o, m.matchType = "exact" →
      ∃ u, sideKey true m = some u ∧ u ∈ g := by
  intro m hm hτ
  rw [matchWords_eq_segments] at hm
  rcases List.mem_append.mp hm with hm' | hm'
  · rcases List.mem_append.mp hm' with h | h
    · rcases mem_exactSegment_strong h with ⟨u, rfl, hug, _⟩
      exact ⟨u, rfl, hug⟩
    · rcases mem_gtOnlySegment_strong h with ⟨u, rfl, _⟩
      exact absurd hτ (by simp)
  · rcases mem_ocrOnlySegment_strong hm' with ⟨u, rfl, _⟩
    exact absurd hτ (by simp)

theorem matchWords_gtKey_gtOnly (g o : List String) :
    ∀ m ∈ matchWords g o, m.matchType = "gt_only" →
      ∃ u, sideKey true m = some u ∧ u ∈ g := by
  intro m hm hτ
  rw [matchWords_eq_segments] at hm
  rcases List.mem_append.mp hm with hm' | hm'
  · rcases List.mem_append.mp hm' with h | h
    · rcases mem_exactSegment_strong h with ⟨u, rfl, _, _⟩
      exact absurd hτ (by simp)
    · rcases mem_gtOnlySegment_strong h with ⟨u, rfl, hug⟩
      exact ⟨u, rfl, hug⟩
  · rcases mem_ocrOnlySegment_strong hm' with ⟨u, rfl, _⟩
    exact absurd hτ (by simp)

theorem matchWords_ocrKey_exact (g o : List String) :
    ∀ m ∈ matchWords g o, m.matchType = "exact" →
      ∃ u, sideKey false m = some u ∧ u ∈ o := by
  intro m hm hτ
  rw [matchWords_eq_segments] at hm
  rcases List.mem_append.mp hm with hm' | hm'
  · rcases List.mem_append.mp hm' with h | h
    · rcases mem_exactSegment_strong h with ⟨u, rfl, _, huo⟩
      exact ⟨u, rfl, huo⟩
    · rcases mem_gtOnlySegment_strong h with ⟨u, rfl, _⟩
      exact absurd hτ (by simp)
  · rcases mem_ocrOnlySegment_strong hm' with ⟨u, rfl, _⟩
    exact absurd hτ (by simp)

theorem matchWords_ocrKey_ocrOnly (g o : List String) :
    ∀ m ∈ matchWords g o, m.matchType = "ocr_only" →
      ∃ u, sideKey false m = some u ∧ u ∈ o := by
  intro m hm hτ
  rw [matchWords_eq_segments] at hm
  rcases List.mem_append.mp hm with hm' | hm'
  · rcases List.mem_append.mp hm' with h | h
    · rcases mem_exactSegment_strong h with ⟨u, rfl, _, _⟩
      exact absurd hτ (by simp)
    · rcases mem_gtOnlySegment_strong h with ⟨u, rfl, _⟩
      exact absurd hτ (by simp)
  · rcases mem_ocrOnlySegment_strong hm' with ⟨u, rfl, huo⟩
    exact ⟨u, rfl, huo⟩

end OcrMetrics

namespace OcrMetrics

/-! ## Claim theorems -/

/-- In the prototype-free idealization `matchWords` (plain maps in place
of object literals), both multisets are conserved: the number of exact
records plus the number of `gt_only` records equals `|R|`, the number of
exact records plus the number of `ocr_only` records equals `|H|`, and the
reference words across exact and `gt_only` records form exactly the
multiset `R` (symmetrically the hypothesis words form exactly `H`). This
is the intended behavior; the plain-object model `jsMatchWords` refutes
it at the word "constructor". -/
theorem matchWords_conservation (R H : List String) :
    ((matchWords R H).countP (fun m => m.matchType = "exact")
        + (matchWords R H).countP (fun m => m.matchType = "gt_only") = R.length)
    ∧ ((matchWords R H).countP (fun m => m.matchType = "exact")
        + (matchWords R H).countP (fun m => m.matchType = "ocr_only") = H.length)
    ∧ (∀ w, (gtSideWords (matchWords R H)).count w = R.count w)
    ∧ (∀ w, (ocrSideWords (matchWords R H)).count w = H.count w) := by
  refine ⟨?_, ?_, ?_, ?_⟩
  · rw [countP_matchWords_exact, countP_matchWords_gtOnly]
    exact exact_add_gtOnly_length R H
  · rw [countP_matchWords_exact, countP_matchWords_ocrOnly]
    exact exact_add_ocrOnly_length R H
  · intro w
    exact gtSideWords_count R H w
  · intro w
    exact ocrSideWords_count R H w

/-- C7: `levenshteinDistance` is zero on equal strings, equals the other
string's length against the empty string, and is symmetric. -/
theorem levenshteinDistance_props :
    (∀ s : String, levenshteinDistance s s = 0)
    ∧ (∀ s : String, levenshteinDistance "" s = s.length)
    ∧ (∀ s : String, levenshteinDistance s "" = s.length)
    ∧ (∀ a b : String, levenshteinDistance a b = levenshteinDistance b a) := by
  refine ⟨?_, ?_, ?_, ?_⟩
  · intro s
    rw [levenshteinDistance_eq_levRec, levRec_self]
  · intro s
    rw [levenshteinDistance_eq_levRec]
    show levRec (("" : String).toList.reverse) s.toList.reverse = s.length
    rw [show ("" : String).toList.reverse = [] from rfl, levRec_nil_left, List.length_reverse]
    rfl
  · intro s
    rw [levenshteinDistance_eq_levRec]
    show levRec s.toList.reverse (("" : String).toList.reverse) = s.length
    rw [show ("" : String).toList.reverse = [] from rfl, levRec_nil_right, List.length_reverse]
    rfl
  · intro a b
    rw [levenshteinDistance_eq_levRec, levenshteinDistance_eq_levRec, levRec_comm]

/-- C9: `preprocessText` normalizes each whitespace-separated word
individually, drops words whose normalization is empty from both outputs,
keeps the original-to-normalized pairing of the surviving tokens, assigns
`position` equal to the index in the normalized list, and returns empty
arrays on empty input. -/
theorem preprocessText_per_word (text : String) (config : Config) :
    ((preprocessText text config).words = (tokenize text).filterMap fun wd =>
        if normalizeWord config wd = "" then none else some (normalizeWord config wd))
    ∧ ((preprocessText text config).wordData.map (fun t => t.normalized)
        = (preprocessText text config).words)
    ∧ ((preprocessText text config).wordData.map (fun t => (t.original, t.normalized))
        = ((tokenize text).filter fun wd => normalizeWord config wd ≠ "").map
            fun wd => (wd, normalizeWord config wd))
    ∧ ((preprocessText text config).wordData.map (fun t => t.position)
        = List.range (preprocessText text config).wordData.length)
    ∧ preprocessText "" config = ⟨[], []⟩ := by
  refine ⟨preprocessText_words_eq text config, preprocess_map_normalized text config, ?_, ?_, rfl⟩
  · rw [preprocessText_wordData_eq]
    exact tokensFrom_map_pair config (tokenize text) 0
  · rw [preprocessText_wordData_eq, tokensFrom_map_position config (tokenize text) 0,
      List.range_eq_range']

/-- C10: a `matchWords` result is grouped — every exact record precedes
every `gt_only` record, which precedes every `ocr_only` record — and each
record has the fixed shape of its type: an exact record carries the same
word on both sides with distance 0, a `gt_only` record carries null
hypothesis word and null distance, an `ocr_only` record carries null
reference word and null distance. -/
theorem matchWords_grouping_and_shape (R H : List String) :
    (matchWords R H).Pairwise (fun a b => typeRank a ≤ typeRank b)
    ∧ (∀ m ∈ matchWords R H,
        (m.matchType = "exact" ∨ m.matchType = "gt_only" ∨ m.matchType = "ocr_only")
        ∧ (m.matchType = "exact" →
            ∃ w, m.gtWord = some w ∧ m.ocrWord = some w ∧ m.editDist = some 0)
        ∧ (m.matchType = "gt_only" → m.ocrWord = none ∧ m.editDist = none)
        ∧ (m.matchType = "ocr_only" → m.gtWord = none ∧ m.editDist = none)) := by
  refine ⟨matchWords_pairwise_rank R H, ?_⟩
  intro m hm
  rcases mem_matchWords_shape hm with ⟨w, rfl⟩ | ⟨w, rfl⟩ | ⟨w, rfl⟩
  · exact ⟨.inl rfl, fun _ => ⟨w, rfl, rfl, rfl⟩,
      fun h => absurd h (by simp), fun h => absurd h (by simp)⟩
  · exact ⟨.inr (.inl rfl), fun h => absurd h (by simp), fun _ => ⟨rfl, rfl⟩,
      fun h => absurd h (by simp)⟩
  · exact ⟨.inr (.inr rfl), fun h => absurd h (by simp), fun h => absurd h (by simp),
      fun _ => ⟨rfl, rfl⟩⟩

/-- Witness for C10 at a concrete exact record of `matchWords ["a"] ["a"]`. -/
theorem matchWords_grouping_and_shape_witness :
    ((⟨some "a", some "a", some 0, "exact"⟩ : MatchRec).matchType = "exact" ∨
      (⟨some "a", some "a", some 0, "exact"⟩ : MatchRec).matchType = "gt_only" ∨
      (⟨some "a", some "a", some 0, "exact"⟩ : MatchRec).matchType = "ocr_only") :=
  ((matchWords_grouping_and_shape ["a"] ["a"]).2
    ⟨some "a", some "a", some 0, "exact"⟩ (by decide)).1

end OcrMetrics

namespace OcrMetrics

/-- C5: `calculateMetrics` computes precision, recall and F1 by the
guarded formulas `exact/totalOcr`, `exact/totalGt` and `2pr/(p+r)`, each
zero denominator yielding 0, and an empty input yields the all-zero
scorecard. -/
theorem calculateMetrics_guarded_ratios (ms : List MatchRec) (g o : Option (List String)) :
    ((calculateMetrics ms g o).precision =
      if 0 < (ms.filter fun m => m.matchType = "exact").length
          + (ms.filter fun m => m.matchType = "ocr_only").length then
        (((ms.filter fun m => m.matchType = "exact").length : ℚ)
          / (((ms.filter fun m => m.matchType = "exact").length
            + (ms.filter fun m => m.matchType = "ocr_only").length : Nat) : ℚ))
      else 0)
    ∧ ((calculateMetrics ms g o).recall_ =
      if 0 < (ms.filter fun m => m.matchType = "exact").length
          + (ms.filter fun m => m.matchType = "gt_only").length then
        (((ms.filter fun m => m.matchType = "exact").length : ℚ)
          / (((ms.filter fun m => m.matchType = "exact").length
            + (ms.filter fun m => m.matchType = "gt_only").length : Nat) : ℚ))
      else 0)
    ∧ ((calculateMetrics ms g o).f1_score =
      if 0 < (calculateMetrics ms g o).precision + (calculateMetrics ms g o).recall_ then
        2 * ((calculateMetrics ms g o).precision * (calculateMetrics ms g o).recall_)
          / ((calculateMetrics ms g o).precision + (calculateMetrics ms g o).recall_)
      else 0)
    ∧ calculateMetrics [] none none = ⟨0, 0, 0, 0, 0, 0, 0, 0, 0, 0, 0⟩ := by
  refine ⟨?_, ?_, ?_, ?_⟩
  · cases g <;> cases o <;> rfl
  · cases g <;> cases o <;> rfl
  · cases g <;> cases o <;> rfl
  · unfold calculateMetrics
    have h0 : joinWords [] = "" := rfl
    have h1 : levenshteinDistance "" "" = 0 := rfl
    norm_num [h0, h1]

/-- C6: with both word lists supplied, `calculateMetrics` computes
`crr = 1 − charErrors/totalRefChars` on the punctuation-free
concatenations whenever the reference concatenation is nonempty, without
clamping: a hypothesis with far more character errors than the reference
has characters yields a strictly negative CRR. -/
theorem calculateMetrics_crr_unclamped :
    (∀ (ms : List MatchRec) (gw ow : List String),
      (calculateMetrics ms (some gw) (some ow)).avg_crr =
        if 0 < (joinWords gw).length then
          1 - (levenshteinDistance (joinWords gw) (joinWords ow) : ℚ)
            / ((joinWords gw).length : ℚ)
        else 0)
    ∧ (calculateMetrics [] (some ["a"]) (some ["xyz"])).avg_crr < 0 := by
  constructor
  · intro ms gw ow
    rfl
  · have hcrr : (calculateMetrics [] (some ["a"]) (some ["xyz"])).avg_crr =
        if 0 < (1 : Nat) then 1 - ((3 : Nat) : ℚ) / ((1 : Nat) : ℚ) else 0 := rfl
    rw [hcrr]
    norm_num

end OcrMetrics

namespace OcrMetrics

/-- C2: during the walk of `createAnnotations`, a token whose normalized
word has a nonempty queue in the lookup whose records are all consumed is
classified as unmatched for its side (`gt_only` on the reference side,
`ocr_only` on the hypothesis side, with null `matched_with` and null
`match_id`), the lookup state is left untouched — no record is reused —
and no error is raised (the walk simply continues). -/
theorem createAnnotations_exhausted_unmatched (b : Bool)
    (mp : Option String → List MInfo) (t : Token) (ts : List Token)
    (hne : mp (some t.normalized) ≠ [])
    (hused : ∀ e ∈ mp (some t.normalized), e.used = true) :
    annotateGo b mp (t :: ts) =
      ({ word := t.original, match_type := if b then "gt_only" else "ocr_only",
         matched_with := none, edit_distance := none, match_id := none } ::
          (annotateGo b mp ts).1,
        (annotateGo b mp ts).2) := by
  rw [annotateGo_cons]
  rw [if_neg (by simpa [List.isEmpty_eq_true] using hne)]
  rw [pickMatch_eq_none hused]
  rfl

/-- Witness for C2: one `"a"`-token against a lookup whose only record for
`"a"` is already consumed. -/
theorem createAnnotations_exhausted_unmatched_witness :
    annotateGo true
        (fun k => if k = some "a" then
          [⟨some "a", some 0, "exact", some "match_0", 0, true⟩] else [])
        [⟨"a", "A", 0⟩] =
      ({ word := "A", match_type := if true then "gt_only" else "ocr_only",
         matched_with := none, edit_distance := none, match_id := none } ::
          (annotateGo true
            (fun k => if k = some "a" then
              [⟨some "a", some 0, "exact", some "match_0", 0, true⟩] else [])
            []).1,
        (annotateGo true
          (fun k => if k = some "a" then
            [⟨some "a", some 0, "exact", some "match_0", 0, true⟩] else [])
          []).2) :=
  createAnnotations_exhausted_unmatched true
    (fun k => if k = some "a" then
      [⟨some "a", some 0, "exact", some "match_0", 0, true⟩] else [])
    ⟨"a", "A", 0⟩ [] (by decide) (by decide)

/-- C3: in one call to `createAnnotations`, each queued record is consumed
at most once across the whole walk (the list of consumed record indices has
no duplicate), and whenever an unconsumed exact record is available in a
token's queue, `pickMatch` selects an exact record — unmatched
classifications arise only after all exact slots are exhausted. -/
theorem createAnnotations_consume_once_prefer_exact :
    (∀ (ms : List MatchRec) (b : Bool) (wordData : List Token),
      (annotateGo b (buildMatchMap ms b) wordData).2.Nodup)
    ∧ (∀ (queue : List MInfo) (e : MInfo), e ∈ queue → e.used = false →
        e.match_type = "exact" →
        ∃ i, pickMatch queue = some i ∧ i.match_type = "exact") := by
  constructor
  · intro ms b wd
    exact (annotateGo_consumed_nodup b wd (buildMatchMap ms b) []
      (buildMatchMap_ordersInj ms b)
      (fun k e _ h => absurd h (List.not_mem_nil _))).1
  · intro q e he hu hx
    exact pickMatch_exact he hu hx

/-- Witness for C3: with an unconsumed `gt_only` record of lower order and
an unconsumed exact record of higher order, the exact record is selected. -/
theorem createAnnotations_consume_once_prefer_exact_witness :
    ∃ i, pickMatch [⟨none, none, "gt_only", none, 5, false⟩,
        ⟨some "x", some 0, "exact", some "match_7", 7, false⟩] = some i ∧
      i.match_type = "exact" :=
  createAnnotations_consume_once_prefer_exact.2
    [⟨none, none, "gt_only", none, 5, false⟩,
      ⟨some "x", some 0, "exact", some "match_7", 7, false⟩]
    ⟨some "x", some 0, "exact", some "match_7", 7, false⟩ (by decide) rfl rfl

/-- In the prototype-free idealization of the pipeline, an annotation's
`match_id` is non-null exactly when its type is exact, and on pipeline
inputs (tokens from `preprocessText`, matches from `matchWords` of the
corresponding word lists) the per-word sequences of exact `match_id`s
produced on the reference-side walk and on the hypothesis-side walk
coincide, so each exact pair shares one identical `match_id` across the
two annotation arrays. This is the intended behavior; the plain-object
model `jsCreateAnnotations` throws instead on texts containing a
prototype-colliding word. -/
theorem createAnnotations_matchId_pairing :
    (∀ (ms : List MatchRec) (wordData : List Token) (b : Bool),
      ∀ a ∈ createAnnotations wordData ms b, ((a.match_id ≠ none) ↔ a.match_type = "exact"))
    ∧ (∀ (textR textH : String) (config : Config) (w : String),
      (((preprocessText textR config).wordData.zip
          (createAnnotations (preprocessText textR config).wordData
            (matchWords (preprocessText textR config).words
              (preprocessText textH config).words) true)).filterMap fun p =>
          if p.1.normalized = w ∧ p.2.match_type = "exact" then some p.2.match_id else none)
        = ((preprocessText textH config).wordData.zip
            (createAnnotations (preprocessText textH config).wordData
              (matchWords (preprocessText textR config).words
                (preprocessText textH config).words) false)).filterMap fun p =>
          if p.1.normalized = w ∧ p.2.match_type = "exact" then some p.2.match_id else none) := by
  constructor
  · intro ms wd b a ha
    exact annotateGo_idTypeOk b wd (buildMatchMap ms b) (buildMatchMap_idTypeOk ms b) a ha
  · intro tR tH cfg w
    exact pipeline_ids_eq _ _ _ _ w (preprocess_map_normalized tR cfg)
      (preprocess_map_normalized tH cfg)

/-- Concrete instance of the prototype-free pairing lemma at the
single-word comparison of `"a"` with `"a"`. -/
theorem createAnnotations_matchId_pairing_witness :
    ((⟨"a", "exact", some "a", some 0, some "match_0"⟩ : Annotation).match_id ≠ none) ↔
      (⟨"a", "exact", some "a", some 0, some "match_0"⟩ : Annotation).match_type = "exact" :=
  createAnnotations_matchId_pairing.1 (matchWords ["a"] ["a"]) [⟨"a", "a", 0⟩] true
    ⟨"a", "exact", some "a", some 0, some "match_0"⟩ (by decide)

end OcrMetrics

namespace OcrMetrics

/-- In the prototype-free idealization of the pipeline, counting match
types in the two annotation arrays reproduces the record counts: exact
annotations on each side equal the exact records, reference-side
`gt_only` annotations equal the `gt_only` records, and hypothesis-side
`ocr_only` annotations equal the `ocr_only` records. This is the
intended behavior; the plain-object model `jsCreateAnnotations` throws
instead on texts containing a prototype-colliding word. -/
theorem annotation_counts_reproduce (textR textH : String) (config : Config) :
    ((createAnnotations (preprocessText textR config).wordData
        (matchWords (preprocessText textR config).words
          (preprocessText textH config).words) true).countP
        (fun a => a.match_type = "exact")
      = (matchWords (preprocessText textR config).words
          (preprocessText textH config).words).countP (fun m => m.matchType = "exact"))
    ∧ ((createAnnotations (preprocessText textH config).wordData
        (matchWords (preprocessText textR config).words
          (preprocessText textH config).words) false).countP
        (fun a => a.match_type = "exact")
      = (matchWords (preprocessText textR config).words
          (preprocessText textH config).words).countP (fun m => m.matchType = "exact"))
    ∧ ((createAnnotations (preprocessText textR config).wordData
        (matchWords (preprocessText textR config).words
          (preprocessText textH config).words) true).countP
        (fun a => a.match_type = "gt_only")
      = (matchWords (preprocessText textR config).words
          (preprocessText textH config).words).countP (fun m => m.matchType = "gt_only"))
    ∧ ((createAnnotations (preprocessText textH config).wordData
        (matchWords (preprocessText textR config).words
          (preprocessText textH config).words) false).countP
        (fun a => a.match_type = "ocr_only")
      = (matchWords (preprocessText textR config).words
          (preprocessText textH config).words).countP (fun m => m.matchType = "ocr_only")) := by
  refine ⟨?_, ?_, ?_, ?_⟩
  · exact createAnnotations_countP_type _ _ _ true "exact"
      (preprocess_map_normalized textR config)
      (matchWords_pairwise_rank _ _)
      (fun w => gtQueue_length _ _ w)
      (matchWords_gtKey_exact _ _)
      (by decide)
  · exact createAnnotations_countP_type _ _ _ false "exact"
      (preprocess_map_normalized textH config)
      (matchWords_pairwise_rank _ _)
      (fun w => ocrQueue_length _ _ w)
      (matchWords_ocrKey_exact _ _)
      (by decide)
  · exact createAnnotations_countP_type _ _ _ true "gt_only"
      (preprocess_map_normalized textR config)
      (matchWords_pairwise_rank _ _)
      (fun w => gtQueue_length _ _ w)
      (matchWords_gtKey_gtOnly _ _)
      (by decide)
  · exact createAnnotations_countP_type _ _ _ false "ocr_only"
      (preprocess_map_normalized textH config)
      (matchWords_pairwise_rank _ _)
      (fun w => ocrQueue_length _ _ w)
      (matchWords_ocrKey_ocrOnly _ _)
      (by decide)

end OcrMetrics

namespace OcrMetrics

/-! ## The prototype-chain code bug -/

/-- Sanity check: away from prototype-colliding words the plain-object
model and the prototype-free idealization of `matchWords` agree, here at
a sample input with duplicates, an exact match and both kinds of
unmatched words. -/
theorem jsMatchWords_agrees_sample :
    jsMatchWords ["a", "b", "a"] ["b", "c"] = matchWords ["a", "b", "a"] ["b", "c"] := by
  decide

/-- C1: the conservation claim fails on the code as written (code bug).
Under plain-object semantics `counter(["constructor"])` stores a garbage
string instead of the count 1 (the read starts from the inherited
`Object.prototype.constructor` function), the membership test
`"constructor" in ocrCounts` is true through the prototype chain, and
the resulting `NaN` match count makes both phases emit zero records for
the word: `matchWords(["constructor"], ["foo"])` returns only the
`ocr_only` record for "foo". The number of exact records plus the number
of `gt_only` records is therefore 0, not `|R| = 1`, and the reference
multiset is not conserved, contradicting the claim and the function's
own documentation ("like Python's Counter", "handles word counts
properly"). -/
theorem matchWords_conservation_bug :
    jsMatchWords ["constructor"] ["foo"] = [⟨none, some "foo", none, "ocr_only"⟩] ∧
    ¬ ((jsMatchWords ["constructor"] ["foo"]).countP (fun m => m.matchType = "exact")
        + (jsMatchWords ["constructor"] ["foo"]).countP (fun m => m.matchType = "gt_only")
        = (["constructor"] : List String).length) := by
  exact ⟨by decide, by decide⟩

/-- C4: the pairing claim fails on the code as written (code bug). For
pipeline texts containing the word "constructor" the walk of
`createAnnotations` reaches the always-true prototype-chain membership
test `normalized in matchMap` with no queue ever created, and
`matchMap[normalized].filter(...)` calls `.filter` on the inherited
function, throwing a TypeError before either annotation array is
produced — so no `match_id` pairing between the two arrays exists.
Concretely, with both texts equal to "constructor" and the default
configuration, the reference-side and the hypothesis-side invocations
both throw. -/
theorem createAnnotations_matchId_pairing_bug :
    jsCreateAnnotations (preprocessText "constructor" ⟨none, none, none⟩).wordData
        (jsMatchWords (preprocessText "constructor" ⟨none, none, none⟩).words
          (preprocessText "constructor" ⟨none, none, none⟩).words) true
      = Except.error () ∧
    jsCreateAnnotations (preprocessText "constructor" ⟨none, none, none⟩).wordData
        (jsMatchWords (preprocessText "constructor" ⟨none, none, none⟩).words
          (preprocessText "constructor" ⟨none, none, none⟩).words) false
      = Except.error () := by
  have hpre : preprocessText "constructor" ⟨none, none, none⟩ =
      ⟨["constructor"], [⟨"constructor", "constructor", 0⟩]⟩ := by
    simp +decide [preprocessText, tokenize, String.split, String.splitAux,
      preprocessStep, normalizeWord, punctCharsOf, removePunctuation,
      defaultPunctuation, String.toLower, String.map, String.mapAux]
  rw [hpre]
  exact ⟨rfl, rfl⟩

/-- C8: the count-reproduction claim fails on the code as written (code
bug). With reference text "constructor", hypothesis text "foo" and the
default configuration, the match list holds one `ocr_only` record and no
`gt_only` or exact record (the reference word is already lost inside
`matchWords`), and the reference-side `createAnnotations` walk throws a
TypeError through the prototype chain instead of producing an annotation
array — so no annotation counts exist to reproduce the record counts. -/
theorem annotation_counts_reproduce_bug :
    jsCreateAnnotations (preprocessText "constructor" ⟨none, none, none⟩).wordData
        (jsMatchWords (preprocessText "constructor" ⟨none, none, none⟩).words
          (preprocessText "foo" ⟨none, none, none⟩).words) true
      = Except.error () ∧
    (jsMatchWords (preprocessText "constructor" ⟨none, none, none⟩).words
        (preprocessText "foo" ⟨none, none, none⟩).words).countP
        (fun m => m.matchType = "ocr_only") = 1 ∧
    (jsMatchWords (preprocessText "constructor" ⟨none, none, none⟩).words
        (preprocessText "foo" ⟨none, none, none⟩).words).countP
        (fun m => m.matchType = "gt_only") = 0 := by
  have hpre : preprocessText "constructor" ⟨none, none, none⟩ =
      ⟨["constructor"], [⟨"constructor", "constructor", 0⟩]⟩ := by
    simp +decide [preprocessText, tokenize, String.split, String.splitAux,
      preprocessStep, normalizeWord, punctCharsOf, removePunctuation,
      defaultPunctuation, String.toLower, String.map, String.mapAux]
  have hfoo : preprocessText "foo" ⟨none, none, none⟩ =
      ⟨["foo"], [⟨"foo", "foo", 0⟩]⟩ := by
    simp +decide [preprocessText, tokenize, String.split, String.splitAux,
      preprocessStep, normalizeWord, punctCharsOf, removePunctuation,
      defaultPunctuation, String.toLower, String.map, String.mapAux]
  rw [hpre, hfoo]
  exact ⟨rfl, by decide, by decide⟩

end OcrMetrics
